import Mathlib

/-!
# Context bit-stack and growable stack of the C lexer

A shallow embedding of `ext/lexer/stack_state.h`, `ext/lexer/stack.h` and the
data declarations of `ext/lexer/lexer.h`, followed by theorems about them. The
functions on `literal` that `lexer.h` declares without a body are modelled from
the specification, and marked so.

Conventions of the embedding:

* a C `int` is an `Int` in the range `[-2^31, 2^31)`; `<<` wraps around modulo
  `2^32` (`wrap32`), `>>` is the arithmetic shift, `&` and `|` are the two's
  complement operations `Int.land` and `Int.lor`;
* a function taking a `stack_state *` or a `name *` becomes a function from the
  pointed-to value to the pair of the returned value and the updated value.
-/

namespace Lexer

/-! ## Machine integers -/

/-- Largest value of a C `int` (32 bits). -/
def INT_MAX : Int := 2147483647

/-- Smallest value of a C `int` (32 bits). -/
def INT_MIN : Int := -2147483648

/-- Reduction of an integer to the 32-bit two's complement range `[-2^31, 2^31)`. -/
def wrap32 (x : Int) : Int := (x + 2147483648) % 4294967296 - 2147483648

/-! ## `stack_state.h` -/

/-- The bit-stack: `typedef int stack_state;`. -/
abbrev stack_state := Int

/-- Embedding of `stack_state_push`:
`bit = bit ? 1 : 0; *ss = (*ss << 1) | bit; return bit;`. -/
def stack_state_push (ss : stack_state) (bit : Int) : Int × stack_state :=
  let bit : Int := if bit ≠ 0 then 1 else 0
  (bit, Int.lor (wrap32 (ss <<< (1 : Int))) bit)

/-- Embedding of `stack_state_pop`:
`int bit = *ss & 1; *ss >>= 1; return bit;`. -/
def stack_state_pop (ss : stack_state) : Int × stack_state :=
  let bit := Int.land ss 1
  (bit, Int.shiftRight ss 1)

/-- Embedding of `stack_state_lexpop`:
`return stack_state_push(ss, stack_state_pop(ss) || stack_state_pop(ss));`.
The left operand of `||` is evaluated first; the right operand is evaluated
only when the left one is zero, and the value of `||` is `1` or `0`. -/
def stack_state_lexpop (ss : stack_state) : Int × stack_state :=
  let (a, ss1) := stack_state_pop ss
  if a ≠ 0 then
    stack_state_push ss1 1
  else
    let (b, ss2) := stack_state_pop ss1
    stack_state_push ss2 (if b ≠ 0 then 1 else 0)

/-- Embedding of `stack_state_active`: `return *ss & 1;`. -/
def stack_state_active (ss : stack_state) : Int × stack_state :=
  (Int.land ss 1, ss)

/-- The value `bit ? 1 : 0` that `stack_state_push` stores and returns. -/
def normBit (bit : Int) : Int := if bit ≠ 0 then 1 else 0

/-- Pushes the bits of a list in order, first element first. -/
def pushBits : List Int → stack_state → stack_state
  | [], ss => ss
  | b :: bs, ss => pushBits bs (stack_state_push ss b).2

/-- Calls `stack_state_pop` `n` times; the returned bits are listed in the order
in which they were popped. -/
def popBits : Nat → stack_state → List Int × stack_state
  | 0, ss => ([], ss)
  | n + 1, ss =>
    let r := stack_state_pop ss
    let rest := popBits n r.2
    (r.1 :: rest.1, rest.2)

/-- The state that the specification's wording of `lexpop` describes: the two
top frames replaced by one frame holding their OR, deeper frames kept. -/
def lexpopSpecState (s : Int) : Int :=
  Int.lor ((Int.shiftRight s 2) <<< (1 : Int))
    (Int.lor (Int.land s 1) (Int.land (Int.shiftRight s 1) 1))

/-! ## `stack.h`: the stack types declared by `define_stack_type` -/

/-- The struct that `define_stack_type(name, member_type, zero)` declares. The
block that `bottom` points to is the list `mem` of its cells, bottom first, a
cell being `none` until it is first written; `top` is the pointer difference
`top - bottom` counted in elements; `size` is the `int size` field. -/
structure Stack (α : Type) where
  mem : List (Option α)
  top : Int
  size : Int
  deriving DecidableEq

/-- A block of `n` fresh cells, as `xmalloc(n * sizeof(member_type))` returns it.
A negative count has no block. -/
def xmalloc {α : Type} (n : Int) : Option (List (Option α)) :=
  if 0 ≤ n then some (List.replicate n.toNat none) else none

/-- The block `dst` after `memcpy(dst, src, n * sizeof(member_type))`: its first
`n` cells are those of `src`. Undefined when `n` cells do not lie in both blocks. -/
def memcpy {α : Type} (dst src : List (Option α)) (n : Int) : Option (List (Option α)) :=
  if 0 ≤ n ∧ n ≤ src.length ∧ n ≤ dst.length then
    some (src.take n.toNat ++ dst.drop n.toNat)
  else none

/-- The block after the write `bottom[i] = v`; undefined outside the block. -/
def store {α : Type} (mem : List (Option α)) (i : Int) (v : α) : Option (List (Option α)) :=
  if 0 ≤ i ∧ i < mem.length then some (mem.set i.toNat (some v)) else none

/-- The value read by `bottom[i]`; undefined outside the block and on a cell
that was never written. -/
def load {α : Type} (mem : List (Option α)) (i : Int) : Option α :=
  if 0 ≤ i then (mem.get? i.toNat).join else none

/-- Embedding of `name ## _init`: a fresh block of 4 cells, `size = 4`,
`top = bottom = buf`. -/
def name_init {α : Type} : Stack α :=
  { mem := List.replicate 4 none, top := 0, size := 4 }

/-- Embedding of `name ## _clear`: `stack->top = stack->bottom`. -/
def name_clear {α : Type} (stack : Stack α) : Stack α :=
  { stack with top := 0 }

/-- Embedding of `name ## _push`. When `top == bottom + size` a block of
`size * 2` cells is allocated, the `size` old cells are copied into it, `top`
keeps its offset and `size` is doubled; then `*stack->top++ = item`.
The product `stack->size * 2` is computed in `int`: when it does not fit, the
behaviour of the C code is undefined and the embedding returns `none`, as it
does for an access outside the block. -/
def name_push {α : Type} (stack : Stack α) (item : α) : Option (Stack α) := do
  let stack ←
    if stack.top = stack.size then
      if stack.size * 2 < INT_MIN ∨ INT_MAX < stack.size * 2 then none
      else do
        let buf ← xmalloc (stack.size * 2)
        let buf ← memcpy buf stack.mem stack.size
        pure { mem := buf, top := stack.top, size := stack.size * 2 }
    else pure stack
  let mem ← store stack.mem stack.top item
  pure { stack with mem := mem, top := stack.top + 1 }

/-- Embedding of `name ## _pop`: `if (stack->top > stack->bottom) return
*--stack->top; else return (member_type)zero;`. -/
def name_pop {α : Type} (zero : α) (stack : Stack α) : Option (α × Stack α) :=
  if stack.top > 0 then
    let stack := { stack with top := stack.top - 1 }
    (load stack.mem stack.top).map fun v => (v, stack)
  else some (zero, stack)

/-- Embedding of `name ## _top`: the pointer `stack->top - 1`, given as its
offset from `bottom`, when `stack->top > stack->bottom`, and `NULL` (`none`)
otherwise. The stack is passed through untouched. -/
def name_top {α : Type} (stack : Stack α) : Option Int × Stack α :=
  if stack.top > 0 then (some (stack.top - 1), stack) else (none, stack)

/-- The cells from `bottom` up to, not including, `top`. -/
def contents {α : Type} (stack : Stack α) : List (Option α) :=
  stack.mem.take stack.top.toNat

/-- Pushes the items of a list in order, first element first. -/
def pushAll {α : Type} : List α → Stack α → Option (Stack α)
  | [], s => some s
  | v :: vs, s => (name_push s v).bind (pushAll vs)

/-- Calls `name ## _pop` `n` times; the returned items are listed in the order
in which they were popped. -/
def popAll {α : Type} (zero : α) : Nat → Stack α → Option (List α × Stack α)
  | 0, s => some ([], s)
  | n + 1, s =>
    (name_pop zero s).bind fun r =>
      (popAll zero n r.2).map fun rest => (r.1 :: rest.1, rest.2)

/-- The stacks that the operations of `stack.h` produce from `name ## _init`. -/
inductive Reachable {α : Type} (zero : α) : Stack α → Prop
  | init : Reachable zero name_init
  | push {s s' : Stack α} {v : α} : Reachable zero s → name_push s v = some s' →
      Reachable zero s'
  | pop {s s' : Stack α} {v : α} : Reachable zero s → name_pop zero s = some (v, s') →
      Reachable zero s'
  | top {s : Stack α} : Reachable zero s → Reachable zero (name_top s).2
  | clear {s : Stack α} : Reachable zero s → Reachable zero (name_clear s)

/-- Representation invariant of the stacks of `stack.h`: `bottom ≤ top ≤
bottom + size`, the block has `size` cells, and `size` is `4 * 2^k` within `int`. -/
def WellFormed {α : Type} (s : Stack α) : Prop :=
  0 ≤ s.top ∧ s.top ≤ s.size ∧ (s.mem.length : Int) = s.size ∧
    ∃ k : Nat, k ≤ 28 ∧ s.size = 4 * 2 ^ k

/-- The stack holds exactly the items `xs`, bottom first: the cells below `top`
are written and carry these values. -/
def Holds {α : Type} (s : Stack α) (xs : List α) : Prop :=
  contents s = xs.map some

/-- The type declared by `define_stack_type(ss_stack, stack_state, 0);`. -/
abbrev ss_stack := Stack stack_state

/-- The function `ss_stack_push`. -/
def ss_stack_push (stack : ss_stack) (item : stack_state) : Option ss_stack :=
  name_push stack item

/-- The function `ss_stack_pop`, whose zero value is `0`. -/
def ss_stack_pop (stack : ss_stack) : Option (stack_state × ss_stack) :=
  name_pop 0 stack

/-- The `ss_stack` that `2^30 = 1073741824` pushes of `0` on a fresh stack
produce: the block has been doubled 28 times and every cell is written. -/
def fullStack : ss_stack :=
  { mem := List.replicate 1073741824 (some 0), top := 1073741824, size := 1073741824 }

/-! ## `lexer.h`: literal kinds and the literal descriptor -/

/-- The enumeration `str_type`. -/
inductive str_type where
  | SINGLE_QUOTE
  | DOUBLE_QUOTE
  | PERCENT_Q
  | BIG_PERCENT_Q
  | LSHFT_SINGLE_QUOT
  | LSHFT_DOUBLE_QUOT
  | BARE_PERCENT
  | PERCENT_W
  | BIG_PERCENT_W
  | PERCENT_I
  | BIG_PERCENT_I
  | SYM_SINGLE_QUOT
  | SYM_DOUBLE_QUOT
  | PERCENT_S
  | SLASH
  | PERCENT_R
  | PERCENT_X
  | BACKTICK
  | LSHFT_BACKTICK
  | INVALID
  deriving DecidableEq

/-- The struct `literal`. `VALUE`, the host interpreter's object handle, is
declared outside these sources and is a parameter; the pointer `lexer` is an
address, `0` being `NULL`. -/
structure literal (VALUE : Type) where
  lexer : Nat
  buffer : VALUE
  buffer_s : Int
  buffer_e : Int
  nesting : Int
  str_type : str_type
  start_tok : VALUE
  interpolate : Int
  start_delim : VALUE
  end_delim : VALUE
  delimiter : VALUE
  heredoc_e : Int
  str_s : Int
  herebody_s : Int
  indent : Int
  label_allowed : Int
  interp_braces : Int
  space_emitted : Int
  monolithic : Int
  dedent_body : Int
  dedent_level : Int
  deriving DecidableEq

/-- The value `(literal){0}`: every member zero; the enumerator of value `0` is
`SINGLE_QUOTE`. -/
def literal_zero (VALUE : Type) [Zero VALUE] : literal VALUE :=
  { lexer := 0, buffer := 0, buffer_s := 0, buffer_e := 0, nesting := 0,
    str_type := str_type.SINGLE_QUOTE, start_tok := 0, interpolate := 0,
    start_delim := 0, end_delim := 0, delimiter := 0, heredoc_e := 0, str_s := 0,
    herebody_s := 0, indent := 0, label_allowed := 0, interp_braces := 0,
    space_emitted := 0, monolithic := 0, dedent_body := 0, dedent_level := 0 }

/-- The type declared by `define_stack_type(lit_stack, literal, {0});`. -/
abbrev lit_stack (VALUE : Type) := Stack (literal VALUE)

/-- The function `lit_stack_pop`, whose zero value is `{0}`. -/
def lit_stack_pop {VALUE : Type} [Zero VALUE] (stack : lit_stack VALUE) :
    Option (literal VALUE × lit_stack VALUE) :=
  name_pop (literal_zero VALUE) stack

/-- A `lit_stack` over `VALUE = Nat` holding one descriptor, the all-zero one. -/
def litStackOne : lit_stack Nat :=
  { mem := [some (literal_zero Nat), none, none, none], top := 1, size := 4 }

/-- The `ss_stack` holding `1, 2, 3, 4` in a block of 4 cells. -/
def ssStackFour : ss_stack :=
  { mem := [some 1, some 2, some 3, some 4], top := 4, size := 4 }

/-- The `ss_stack` holding `1, 2` in a block of 4 cells. -/
def ssStackTwo : ss_stack :=
  { mem := [some 1, some 2, none, none], top := 2, size := 4 }

/-- The enumerators of `str_type` in the order of their declaration. -/
def str_type_enumerators : List str_type :=
  [str_type.SINGLE_QUOTE, str_type.DOUBLE_QUOTE, str_type.PERCENT_Q,
   str_type.BIG_PERCENT_Q, str_type.LSHFT_SINGLE_QUOT, str_type.LSHFT_DOUBLE_QUOT,
   str_type.BARE_PERCENT, str_type.PERCENT_W, str_type.BIG_PERCENT_W,
   str_type.PERCENT_I, str_type.BIG_PERCENT_I, str_type.SYM_SINGLE_QUOT,
   str_type.SYM_DOUBLE_QUOT, str_type.PERCENT_S, str_type.SLASH, str_type.PERCENT_R,
   str_type.PERCENT_X, str_type.BACKTICK, str_type.LSHFT_BACKTICK, str_type.INVALID]

/-- The integer value of an enumerator: no enumerator of `str_type` has an
initialiser, so the first has the value `0` and each following one the value of
its predecessor plus one, which is its position in the declaration. -/
def str_type_value (t : str_type) : Int :=
  (str_type_enumerators.indexOf t : Nat)

/-- The function `lit_stack_top`. -/
def lit_stack_top {VALUE : Type} (stack : lit_stack VALUE) :
    Option Int × lit_stack VALUE :=
  name_top stack

/-- One call of an operation of `stack.h` on a stack. -/
inductive StackOp (α : Type) where
  | push (item : α)
  | pop
  | top
  | clear

/-- The stack after one operation; `none` when the operation has no defined
result. -/
def runOp {α : Type} (zero : α) (s : Stack α) : StackOp α → Option (Stack α)
  | StackOp.push item => name_push s item
  | StackOp.pop => (name_pop zero s).map Prod.snd
  | StackOp.top => some (name_top s).2
  | StackOp.clear => some (name_clear s)

/-- The stack after a sequence of operations, first element first. -/
def runOps {α : Type} (zero : α) : List (StackOp α) → Stack α → Option (Stack α)
  | [], s => some s
  | op :: ops, s => (runOp zero s op).bind (runOps zero ops)

/-- The `ss_stack` after the pushes of `1, 2, 3, 4, 5` and one pop. -/
def ssStackGrown : ss_stack :=
  { mem := [some 1, some 2, some 3, some 4, some 5, none, none, none], top := 4, size := 8 }

/-- The stack `ssStackGrown` after a clear, a top and the push of `6`. -/
def ssStackReused : ss_stack :=
  { mem := [some 6, some 2, some 3, some 4, some 5, none, none, none], top := 1, size := 8 }

/-- The operations that lead from a fresh stack to `ssStackGrown`. -/
def opsGrow : List (StackOp stack_state) :=
  [StackOp.push 1, StackOp.push 2, StackOp.push 3, StackOp.push 4, StackOp.push 5,
    StackOp.pop]

/-- The operations that lead from `ssStackGrown` to `ssStackReused`. -/
def opsReuse : List (StackOp stack_state) :=
  [StackOp.clear, StackOp.top, StackOp.push 6]

/-! ## Literal descriptor: nesting of delimiters and of interpolation braces -/

/-- Modelled from the spec: the body of `literal_nest_and_close`, of which
`lexer.h` holds only the declaration
`static int literal_nest_and_close(literal*, VALUE, int, int, VALUE);`.
By the spec a delimiter matching `start_delimiter` increments `nesting`, for
bracket styles only, that is when the two delimiters differ; a delimiter
matching `end_delimiter` closes the literal when `nesting == 0`, and when
`nesting > 0` it decrements `nesting` and is content. The returned `int` is `1`
when the literal closes and `0` otherwise. The positions `ts`, `te`, the
lookahead and the emission of tokens are left out. -/
def literal_nest_and_close {VALUE : Type} [DecidableEq VALUE] (lit : literal VALUE)
    (delimiter : VALUE) : Int × literal VALUE :=
  if lit.start_delim ≠ lit.end_delim ∧ delimiter = lit.start_delim then
    (0, { lit with nesting := lit.nesting + 1 })
  else if delimiter = lit.end_delim then
    if lit.nesting = 0 then (1, lit)
    else if 0 < lit.nesting then (0, { lit with nesting := lit.nesting - 1 })
    else (0, lit)
  else (0, lit)

/-- Feeds the characters of a list to `literal_nest_and_close`, first element
first; for each character the trace records the returned `int` and the
`nesting` left by the call. -/
def feedDelimiters {VALUE : Type} [DecidableEq VALUE] (lit : literal VALUE) :
    List VALUE → List (Int × Int) × literal VALUE
  | [] => ([], lit)
  | d :: ds =>
    let r := literal_nest_and_close lit d
    let rest := feedDelimiters r.2 ds
    ((r.1, r.2.nesting) :: rest.1, rest.2)

/-- The words over `β` in which the occurrences of the pair `o`, `c` are
balanced: the empty word, a single character other than `o` and `c`, a balanced
word enclosed in `o … c`, and the concatenation of two balanced words. -/
inductive Balanced {β : Type} (o c : β) : List β → Prop
  | nil : Balanced o c []
  | other (x : β) : x ≠ o → x ≠ c → Balanced o c [x]
  | wrap {w : List β} : Balanced o c w → Balanced o c (o :: (w ++ [c]))
  | append {u v : List β} : Balanced o c u → Balanced o c v → Balanced o c (u ++ v)

/-- Modelled from the spec: the body of `literal_start_interp_brace`, of which
`lexer.h` holds only the declaration
`static void literal_start_interp_brace(literal*);`. By the spec every `{`
inside an interpolation increments `interp_brace_depth`, the member
`interp_braces`. -/
def literal_start_interp_brace {VALUE : Type} (lit : literal VALUE) : literal VALUE :=
  { lit with interp_braces := lit.interp_braces + 1 }

/-- Modelled from the spec: the body of `literal_end_interp_brace_and_close`, of
which `lexer.h` holds only the declaration
`static int literal_end_interp_brace_and_close(literal*);`. By the spec every
`}` decrements `interp_brace_depth`, and reaching `0` ends the interpolation.
The returned `int` is `1` when the interpolation ends and `0` otherwise. -/
def literal_end_interp_brace_and_close {VALUE : Type} (lit : literal VALUE) :
    Int × literal VALUE :=
  let lit := { lit with interp_braces := lit.interp_braces - 1 }
  (if lit.interp_braces = 0 then 1 else 0, lit)

/-- The tokens of the code inside an interpolation, as far as the brace count
is concerned. -/
inductive CodeTok where
  | lbrace
  | rbrace
  | other
  deriving DecidableEq

/-- Feeds the tokens of interpolated code to the literal, first element first:
`{` calls `literal_start_interp_brace`, `}` calls
`literal_end_interp_brace_and_close`, any other token calls neither. For each
token the trace records whether the interpolation was reported closed and the
`interp_braces` left. -/
def feedCode {VALUE : Type} (lit : literal VALUE) :
    List CodeTok → List (Int × Int) × literal VALUE
  | [] => ([], lit)
  | CodeTok.lbrace :: ts =>
    let l := literal_start_interp_brace lit
    let rest := feedCode l ts
    ((0, l.interp_braces) :: rest.1, rest.2)
  | CodeTok.rbrace :: ts =>
    let r := literal_end_interp_brace_and_close lit
    let rest := feedCode r.2 ts
    ((r.1, r.2.interp_braces) :: rest.1, rest.2)
  | CodeTok.other :: ts =>
    let rest := feedCode lit ts
    ((0, lit.interp_braces) :: rest.1, rest.2)

/-- A bare-percent literal over `VALUE = Nat` delimited by `(` (40) and `)` (41),
as opened for `%(a(b(c))d)`. -/
def parenLiteral : literal Nat :=
  { literal_zero Nat with
    str_type := str_type.BARE_PERCENT, start_delim := 40, end_delim := 41, interpolate := 1 }

/-- The characters `a(b(c))d` of the content of `%(a(b(c))d)`. -/
def parenContent : List Nat := [97, 40, 98, 40, 99, 41, 41, 100]

/-- The literal `parenLiteral` inside an interpolation that has just begun:
`interp_braces` is `1`. -/
def interpLiteral : literal Nat :=
  { parenLiteral with interp_braces := 1 }

/-- The tokens ` {} {} ` between the `#{` and the final `}` of `#{ {} {} }`. -/
def interpContent : List CodeTok :=
  [CodeTok.lbrace, CodeTok.rbrace, CodeTok.lbrace, CodeTok.rbrace]

/-! ## Arithmetic reading of the bit operations -/

theorem int_land_one (s : Int) : Int.land s 1 = s % 2 := by
  have h1 : (1 : Int) = Int.bit true 0 := by simp [Int.bit_val]
  have hz : ∀ n : Int, Int.land n 0 = 0 := by
    intro n
    cases n with
    | ofNat m => show ((m &&& 0 : Nat) : Int) = 0; simp
    | negSucc m => show ((Nat.ldiff 0 m : Nat) : Int) = 0; simp [Nat.ldiff]
  conv_lhs => rw [← Int.bit_decomp s, h1, Int.land_bit, hz, Int.bit_val]
  have := Int.bodd_add_div2 s
  cases hb : Int.bodd s <;> simp [hb] at this ⊢ <;> omega

theorem int_lor_bit (x b : Int) (hx : x % 2 = 0) (hb : b = 0 ∨ b = 1) :
    Int.lor x b = x + b := by
  have hz : ∀ n : Int, Int.lor n 0 = n := by
    intro n
    cases n with
    | ofNat m => show ((m ||| 0 : Nat) : Int) = _; simp
    | negSucc m => show Int.negSucc (Nat.ldiff m 0) = _; simp [Nat.ldiff]
  have hx2 : x = Int.bit false (x / 2) := by simp [Int.bit_val]; omega
  rcases hb with rfl | rfl
  · rw [hz]; simp
  · have h1 : (1 : Int) = Int.bit true 0 := by simp [Int.bit_val]
    conv_lhs => rw [hx2, h1, Int.lor_bit, hz]
    simp [Int.bit_val]; omega

theorem int_shl_one (s : Int) : s <<< (1 : Int) = s * 2 := by
  have := Int.shiftLeft_eq_mul_pow s 1
  simpa using this

theorem int_shr_one (s : Int) : Int.shiftRight s 1 = s / 2 := by
  have := Int.shiftRight_eq_div_pow s 1
  simpa using this

theorem int_shr_two (s : Int) : Int.shiftRight s 2 = s / 4 := by
  have := Int.shiftRight_eq_div_pow s 2
  simpa using this

theorem normBit_cases (b : Int) : normBit b = 0 ∨ normBit b = 1 := by
  unfold normBit; split <;> simp

theorem wrap32_even (x : Int) : wrap32 (x * 2) % 2 = 0 := by
  unfold wrap32; omega

/-- Arithmetic form of `stack_state_push`. -/
theorem stack_state_push_eq (ss bit : Int) :
    stack_state_push ss bit = (normBit bit, wrap32 (ss * 2) + normBit bit) := by
  show (normBit bit, Int.lor (wrap32 (ss <<< (1 : Int))) (normBit bit)) = _
  rw [int_shl_one, int_lor_bit _ _ (wrap32_even ss) (normBit_cases bit)]

/-- Arithmetic form of `stack_state_pop`. -/
theorem stack_state_pop_eq (ss : Int) : stack_state_pop ss = (ss % 2, ss / 2) := by
  unfold stack_state_pop
  simp only [int_land_one, int_shr_one]

/-- Arithmetic form of `stack_state_active`. -/
theorem stack_state_active_eq (ss : Int) : stack_state_active ss = (ss % 2, ss) := by
  unfold stack_state_active
  simp only [int_land_one]

/-- Arithmetic form of `stack_state_lexpop`: when the top bit is set only one
frame is popped before the push. -/
theorem stack_state_lexpop_eq (ss : Int) :
    stack_state_lexpop ss =
      if ss % 2 ≠ 0 then (1, wrap32 (ss / 2 * 2) + 1)
      else (normBit (ss / 2 % 2), wrap32 (ss / 2 / 2 * 2) + normBit (ss / 2 % 2)) := by
  unfold stack_state_lexpop
  simp only [stack_state_pop_eq, stack_state_push_eq]
  have h : ∀ b : Int, normBit (if b ≠ 0 then 1 else 0) = normBit b := by
    intro b; unfold normBit; split <;> simp_all
  by_cases h0 : ss % 2 ≠ 0
  · rw [if_pos h0, if_pos h0]; rfl
  · rw [if_neg h0, if_neg h0, h]

theorem int_lor_bits (a b : Int) (ha : a = 0 ∨ a = 1) (hb : b = 0 ∨ b = 1) :
    Int.lor a b = if a ≠ 0 then 1 else b := by
  rcases ha with rfl | rfl <;> rcases hb with rfl | rfl <;> decide

/-! ## Context bit-stack: `lexpop`, `push`, `pop`, `active` -/

/-- C1 (the code departs from the claim): on the state `3`, two frames both
holding `1`, which is also the state reached by `push(1); push(1)` from the
empty stack, `stack_state_lexpop` returns `1` and leaves the state `3`: the `||`
has not evaluated its second `stack_state_pop`, so only one frame was popped
before the push. Replacing the two top frames by their OR gives the state `1`. -/
theorem lexpop_state_three_keeps_both_frames :
    pushBits [1, 1] 0 = 3 ∧ stack_state_lexpop 3 = (1, 3) ∧ lexpopSpecState 3 = 1 ∧
      (stack_state_lexpop 3).2 ≠ lexpopSpecState 3 := by
  decide

/-- C2: for every state `s`, `stack_state_lexpop` returns the OR of the two top
frames `(s & 1) | ((s >> 1) & 1)`, the returned value is `0` or `1`, and
`stack_state_active` called on the resulting state returns the same value. -/
theorem lexpop_returns_or_of_top_frames (s : Int) :
    (stack_state_lexpop s).1 = Int.lor (Int.land s 1) (Int.land (Int.shiftRight s 1) 1) ∧
      ((stack_state_lexpop s).1 = 0 ∨ (stack_state_lexpop s).1 = 1) ∧
      (stack_state_active (stack_state_lexpop s).2).1 = (stack_state_lexpop s).1 := by
  have ha : s % 2 = 0 ∨ s % 2 = 1 := by omega
  have hb : s / 2 % 2 = 0 ∨ s / 2 % 2 = 1 := by omega
  rw [int_land_one, int_land_one, int_shr_one, int_lor_bits _ _ ha hb,
    stack_state_active_eq, stack_state_lexpop_eq]
  by_cases h0 : s % 2 ≠ 0
  · simp only [if_pos h0]
    refine ⟨trivial, Or.inr trivial, ?_⟩
    have := wrap32_even (s / 2)
    omega
  · simp only [if_neg h0]
    have hn : normBit (s / 2 % 2) = s / 2 % 2 := by
      unfold normBit; rcases hb with h | h <;> simp [h]
    refine ⟨hn, ?_, ?_⟩
    · rw [hn]; exact hb
    · have := wrap32_even (s / 2 / 2)
      omega

/-- C3: for every state `s` with `0 ≤ s < 2^30` and every argument `bit`,
`stack_state_push` returns `1` if `bit` is non-zero and `0` otherwise, and a
following `stack_state_pop` returns that same value and leaves the state `s`. -/
theorem push_then_pop_restores (s bit : Int) (h0 : 0 ≤ s) (h1 : s < 2 ^ 30) :
    (stack_state_push s bit).1 = (if bit ≠ 0 then 1 else 0) ∧
      stack_state_pop (stack_state_push s bit).2 = ((stack_state_push s bit).1, s) := by
  rw [stack_state_push_eq, stack_state_pop_eq]
  refine ⟨rfl, ?_⟩
  have hb := normBit_cases bit
  have hw : wrap32 (s * 2) = s * 2 := by unfold wrap32; omega
  simp only [hw, Prod.mk.injEq]
  constructor <;> omega

/-- C3 at the empty stack: `pop()` after `push(1)` returns `1` and leaves the
state `0`. -/
theorem push_then_pop_restores_witness :
    (0 : Int) ≤ 0 ∧ (0 : Int) < 2 ^ 30 ∧
      ((stack_state_push 0 1).1 = (if (1 : Int) ≠ 0 then 1 else 0) ∧
        stack_state_pop (stack_state_push 0 1).2 = ((stack_state_push 0 1).1, 0)) :=
  ⟨by decide, by decide, push_then_pop_restores 0 1 (by decide) (by decide)⟩

/-- C5: `stack_state_active` returns `s & 1` and leaves every state `s`
unchanged, and called right after `stack_state_push` on a state with
`0 ≤ s < 2^30` it returns the bit that the push stored and returned, `1` if the
argument was non-zero and `0` otherwise. -/
theorem active_peeks_lowest_bit :
    (∀ s : Int, stack_state_active s = (Int.land s 1, s)) ∧
      (∀ s b : Int, 0 ≤ s → s < 2 ^ 30 →
        stack_state_active (stack_state_push s b).2 =
          ((if b ≠ 0 then 1 else 0), (stack_state_push s b).2) ∧
        (stack_state_push s b).1 = (if b ≠ 0 then 1 else 0)) := by
  refine ⟨fun s => rfl, ?_⟩
  intro s b _ _
  rw [stack_state_active_eq, stack_state_push_eq]
  refine ⟨?_, rfl⟩
  have hb := normBit_cases b
  have hw := wrap32_even s
  have he : (wrap32 (s * 2) + normBit b) % 2 = normBit b := by omega
  simp only [he]
  rfl

/-- C5 on the state `5` (frames `1, 0, 1`) with the argument `7`: `active()`
after the push returns `1`. -/
theorem active_peeks_lowest_bit_witness :
    (0 : Int) ≤ 5 ∧ (5 : Int) < 2 ^ 30 ∧
      (stack_state_active (stack_state_push 5 7).2 =
          ((if (7 : Int) ≠ 0 then 1 else 0), (stack_state_push 5 7).2) ∧
        (stack_state_push 5 7).1 = (if (7 : Int) ≠ 0 then 1 else 0)) :=
  ⟨by decide, by decide, active_peeks_lowest_bit.2 5 7 (by decide) (by decide)⟩

/-! ## Pushing and popping sequences of bits -/

theorem popBits_succ_last (n : Nat) (ss : Int) :
    popBits (n + 1) ss =
      ((popBits n ss).1 ++ [(stack_state_pop (popBits n ss).2).1],
        (stack_state_pop (popBits n ss).2).2) := by
  induction n generalizing ss with
  | zero => simp [popBits]
  | succ n ih =>
    rw [popBits, ih]
    simp [popBits]

/-- Bounds of the state after pushing `bs` on a state `0 ≤ s < 2^j`, while the
total depth stays at most 31. -/
theorem pushBits_bounds (bs : List Int) (s : Int) (j : Nat) (h0 : 0 ≤ s)
    (h1 : s < 2 ^ j) (hj : j + bs.length ≤ 31) :
    s * 2 ^ bs.length ≤ pushBits bs s ∧ pushBits bs s < (s + 1) * 2 ^ bs.length := by
  induction bs generalizing s j with
  | nil => simp [pushBits]
  | cons b bs ih =>
    simp only [List.length_cons] at hj ⊢
    have hp : (2 : Int) ^ j ≤ 2 ^ 30 := by
      apply pow_le_pow_right₀ (by norm_num); omega
    have hb := normBit_cases b
    have hw : wrap32 (s * 2) = s * 2 := by unfold wrap32; omega
    have hpj : (2 : Int) ^ (j + 1) = 2 * 2 ^ j := by ring
    have := ih (s * 2 + normBit b) (j + 1) (by omega) (by omega) (by omega)
    rw [pushBits, stack_state_push_eq, hw]
    have hq : (2 : Int) ^ (bs.length + 1) = 2 * 2 ^ bs.length := by ring
    have hpos : (0 : Int) < 2 ^ bs.length := by positivity
    simp only [hq]
    generalize pushBits bs (s * 2 + normBit b) = t at this ⊢
    generalize (2 : Int) ^ bs.length = P at this hpos ⊢
    rcases hb with h | h <;> rw [h] at this <;> constructor <;> nlinarith [this.1, this.2]

theorem pushBits_append (xs ys : List Int) (s : Int) :
    pushBits (xs ++ ys) s = pushBits ys (pushBits xs s) := by
  induction xs generalizing s with
  | nil => rfl
  | cons x xs ih => simp [pushBits, ih]

/-- Pushing at most `31 - j` bits on a state `0 ≤ s < 2^j` and popping as many
returns the pushed bits, last pushed first, and restores `s`. -/
theorem popBits_pushBits (bs : List Int) (s : Int) (j : Nat) (h0 : 0 ≤ s)
    (h1 : s < 2 ^ j) (hj : j + bs.length ≤ 31) :
    popBits bs.length (pushBits bs s) = ((bs.map normBit).reverse, s) := by
  induction bs generalizing s j with
  | nil => simp [pushBits, popBits]
  | cons b bs ih =>
    simp only [List.length_cons] at hj ⊢
    have hp : (2 : Int) ^ j ≤ 2 ^ 30 := by
      apply pow_le_pow_right₀ (by norm_num); omega
    have hb := normBit_cases b
    have hw : wrap32 (s * 2) = s * 2 := by unfold wrap32; omega
    have hpj : (2 : Int) ^ (j + 1) = 2 * 2 ^ j := by ring
    have := ih (s * 2 + normBit b) (j + 1) (by omega) (by omega) (by omega)
    rw [popBits_succ_last, pushBits, stack_state_push_eq, hw]
    simp only [this, stack_state_pop_eq, List.map_cons, List.reverse_cons, Prod.mk.injEq]
    constructor
    · congr 1
      have : (s * 2 + normBit b) % 2 = normBit b := by omega
      rw [this]
    · show ((s * 2 + normBit b) / 2 : Int) = s
      omega

/-- Popping `k` frames sees only the `k` lowest bits: a multiple of `2^k` added
to the state is carried into the remaining state. -/
theorem popBits_add_mul_pow (k : Nat) (t c : Int) :
    popBits k (t + c * 2 ^ k) = ((popBits k t).1, (popBits k t).2 + c) := by
  induction k generalizing t with
  | zero => simp [popBits]
  | succ k ih =>
    have hq : (2 : Int) ^ (k + 1) = 2 * 2 ^ k := by ring
    have hm : c * (2 * 2 ^ k) = 2 * (c * 2 ^ k) := by ring
    have h1 : (t + c * 2 ^ (k + 1)) / 2 = t / 2 + c * 2 ^ k := by rw [hq, hm]; omega
    have h2 : (t + c * 2 ^ (k + 1)) % 2 = t % 2 := by rw [hq, hm]; omega
    simp only [popBits, stack_state_pop_eq, h1, h2, ih]

/-- The state left by popping 32 bits after pushing 32 bits whose first is set. -/
theorem popBits_pushBits_full (bs : List Int) (hlen : bs.length = 31) :
    popBits 32 (pushBits bs 1) = ((bs.map normBit).reverse ++ [1], -1) := by
  rcases List.eq_nil_or_concat bs with h | ⟨bs2, c, rfl⟩
  · subst h; simp at hlen
  · rw [List.concat_eq_append] at hlen ⊢
    simp only [List.length_append, List.length_singleton] at hlen
    have hl : bs2.length = 30 := by omega
    have hb := pushBits_bounds bs2 1 1 (by norm_num) (by norm_num) (by omega)
    have hr := popBits_pushBits bs2 1 1 (by norm_num) (by norm_num) (by omega)
    rw [hl] at hb hr
    obtain ⟨t, ht⟩ : ∃ t : Int, pushBits bs2 1 = t := ⟨_, rfl⟩
    rw [ht] at hb hr
    have hb1 : 1073741824 ≤ t := by have := hb.1; norm_num at this; exact this
    have hb2 : t < 2147483648 := by have := hb.2; norm_num at this; exact this
    clear hb
    have hc := normBit_cases c
    rw [pushBits_append]
    rw [ht]
    have hsh := popBits_add_mul_pow 30 t (-2)
    rw [hr] at hsh
    rw [pushBits, pushBits, stack_state_push_eq]
    show popBits 32 (wrap32 (t * 2) + normBit c) = _
    have hw : wrap32 (t * 2) = t * 2 - 4294967296 := by
      unfold wrap32; omega
    have e1 : (t * 2 - 4294967296 + normBit c) % 2 = normBit c := by omega
    have e2 : (t * 2 - 4294967296 + normBit c) / 2 = t + -2 * 2 ^ 30 := by
      norm_num; omega
    rw [hw, popBits, stack_state_pop_eq]
    simp only [e1, e2]
    rw [popBits_succ_last, hsh, stack_state_pop_eq]
    simp

theorem map_normBit_of_bits (bs : List Int) (hbits : ∀ b ∈ bs, b = 0 ∨ b = 1) :
    bs.map normBit = bs := by
  induction bs with
  | nil => rfl
  | cons b bs ih =>
    have hb : normBit b = b := by
      rcases hbits b (by simp) with h | h <;> subst h <;> rfl
    rw [List.map_cons, hb, ih (fun x hx => hbits x (by simp [hx]))]

/-- C4, the claim as stated fails at depth 32: after pushing 32 set bits on the
empty stack, 32 calls of `stack_state_pop` return the 32 bits but leave the
state `-1`, not `0`: the first pushed bit sits in the sign bit, and the
arithmetic right shift copies it into every vacated position. -/
theorem thirty_two_set_bits_leave_minus_one :
    (List.replicate 32 (1 : Int)).length ≤ 32 ∧
      pushBits (List.replicate 32 1) 0 = -1 ∧
      popBits 32 (pushBits (List.replicate 32 1) 0) = (List.replicate 32 1, -1) ∧
      ¬ popBits 32 (pushBits (List.replicate 32 1) 0) =
          ((List.replicate 32 (1 : Int)).reverse, 0) := by
  have hpush : pushBits (List.replicate 32 1) 0 = -1 := by
    simp [List.replicate, pushBits, stack_state_push_eq, wrap32, normBit]
  have hpop : popBits 32 (-1) = (List.replicate 32 1, -1) := by
    simp [List.replicate, popBits, stack_state_pop_eq]
  refine ⟨by simp, hpush, by rw [hpush, hpop], ?_⟩
  rw [hpush, hpop]
  simp

/-- C4 (amended): for every sequence of at most 32 bits, pushing them in order
on the empty stack and popping as many times returns the bits in reverse order
of pushing; the state left is `0` when the sequence has at most 31 bits or its
first bit is `0`, and `-1` when it has 32 bits and its first bit is `1`. -/
theorem push_pop_bits_within_width (bs : List Int) (hlen : bs.length ≤ 32)
    (hbits : ∀ b ∈ bs, b = 0 ∨ b = 1) :
    popBits bs.length (pushBits bs 0) =
      (bs.reverse, if bs.length = 32 ∧ bs.head? = some 1 then -1 else 0) := by
  rcases Nat.lt_or_ge bs.length 32 with h | h
  · have := popBits_pushBits bs 0 0 (by norm_num) (by norm_num) (by omega)
    rw [this, map_normBit_of_bits bs hbits, if_neg (by omega)]
  · have h32 : bs.length = 32 := by omega
    cases bs with
    | nil => simp at h32
    | cons b0 bs =>
      simp only [List.length_cons] at h32
      have h31 : bs.length = 31 := by omega
      have hm := map_normBit_of_bits bs (fun x hx => hbits x (by simp [hx]))
      rcases hbits b0 (by simp) with h0 | h0 <;> subst h0
      · have e : pushBits (0 :: bs) 0 = pushBits bs 0 := by
          rw [pushBits, stack_state_push_eq]; rfl
        have := popBits_pushBits bs 0 0 (by norm_num) (by norm_num) (by omega)
        rw [List.length_cons, popBits_succ_last, e, this, hm, stack_state_pop_eq]
        simp
      · have e : pushBits (1 :: bs) 0 = pushBits bs 1 := by
          rw [pushBits, stack_state_push_eq]; rfl
        have := popBits_pushBits_full bs h31
        rw [List.length_cons, h31, e, this, hm]
        simp [h31]

/-- C4 (amended) on the 32 bits `1, 0, 0, …, 0`: the pops return 31 zeros and
then the `1`, and the state left is `-1`. -/
theorem push_pop_bits_within_width_witness :
    ((1 : Int) :: List.replicate 31 0).length ≤ 32 ∧
      (∀ b ∈ (1 : Int) :: List.replicate 31 0, b = 0 ∨ b = 1) ∧
      popBits ((1 : Int) :: List.replicate 31 0).length
          (pushBits ((1 : Int) :: List.replicate 31 0) 0) =
        (((1 : Int) :: List.replicate 31 0).reverse,
          if ((1 : Int) :: List.replicate 31 0).length = 32 ∧
              ((1 : Int) :: List.replicate 31 0).head? = some 1 then -1 else 0) :=
  ⟨by simp, by simp, push_pop_bits_within_width _ (by simp) (by simp)⟩

/-! ## Growable stack: the two paths of `push`, and `pop` -/

theorem take_set_succ {β : Type} (l : List β) (n : Nat) (x : β) (h : n < l.length) :
    (l.set n x).take (n + 1) = l.take n ++ [x] := by
  induction l generalizing n with
  | nil => simp at h
  | cons a l ih =>
    cases n with
    | zero => simp
    | succ n =>
      simp only [List.length_cons, Nat.add_lt_add_iff_right] at h
      simp [ih n h]

theorem store_of_bounds {α : Type} (mem : List (Option α)) (i : Int) (v : α)
    (h0 : 0 ≤ i) (h1 : i < (mem.length : Int)) :
    store mem i v = some (mem.set i.toNat (some v)) := by
  unfold store; rw [if_pos ⟨h0, h1⟩]

/-- The path of `name ## _push` that does not grow the block. -/
theorem name_push_of_lt {α : Type} (s : Stack α) (v : α) (h0 : 0 ≤ s.top)
    (h1 : s.top < s.size) (hl : (s.mem.length : Int) = s.size) :
    name_push s v =
      some { mem := s.mem.set s.top.toNat (some v), top := s.top + 1, size := s.size } := by
  have hne : s.top ≠ s.size := by omega
  have hst := store_of_bounds s.mem s.top v h0 (by omega)
  simp only [name_push, if_neg hne, hst, Option.pure_def, Option.bind_eq_bind,
    Option.some_bind]

/-- The path of `name ## _push` that doubles the block. -/
theorem name_push_of_full {α : Type} (s : Stack α) (v : α) (ht : s.top = s.size)
    (hl : (s.mem.length : Int) = s.size) (hpos : 0 < s.size)
    (hs : s.size * 2 ≤ INT_MAX) :
    name_push s v =
      some { mem := (s.mem ++ List.replicate s.size.toNat none).set s.top.toNat (some v),
             top := s.top + 1, size := s.size * 2 } := by
  have hs0 : 0 ≤ s.size := by omega
  have hs' : s.size * 2 ≤ 2147483647 := hs
  have hov : ¬ (s.size * 2 < INT_MIN ∨ INT_MAX < s.size * 2) := by
    show ¬ (s.size * 2 < -2147483648 ∨ 2147483647 < s.size * 2)
    omega
  have hx : (xmalloc (s.size * 2) : Option (List (Option α))) =
      some (List.replicate (s.size * 2).toNat none) := by
    unfold xmalloc; rw [if_pos (by omega)]
  have hm : memcpy (List.replicate (s.size * 2).toNat (none : Option α)) s.mem s.size =
      some (s.mem ++ List.replicate s.size.toNat none) := by
    have hc : 0 ≤ s.size ∧ s.size ≤ (s.mem.length : Int) ∧
        s.size ≤ ((List.replicate (s.size * 2).toNat (none : Option α)).length : Int) := by
      rw [List.length_replicate]; omega
    have ht : s.mem.take s.size.toNat = s.mem := by
      apply List.take_of_length_le; omega
    have hd : (s.size * 2).toNat - s.size.toNat = s.size.toNat := by omega
    unfold memcpy
    rw [if_pos hc, ht, List.drop_replicate, hd]
  have hst := store_of_bounds (s.mem ++ List.replicate s.size.toNat none) s.top v
    (by omega) (by rw [List.length_append, List.length_replicate]; omega)
  simp only [name_push, if_pos ht, if_neg hov, hx, hm, hst, Option.pure_def,
    Option.bind_eq_bind, Option.some_bind]

theorem holds_length {α : Type} {s : Stack α} {xs : List α} (hw : WellFormed s)
    (hx : Holds s xs) : (xs.length : Int) = s.top := by
  obtain ⟨h0, h1, hl, _⟩ := hw
  have := congrArg List.length hx
  simp only [contents, List.length_take, List.length_map] at this
  omega

theorem wellFormed_init {α : Type} : WellFormed (name_init : Stack α) :=
  ⟨le_refl _, by show (0 : Int) ≤ 4; decide, by show ((4 : Nat) : Int) = 4; rfl, 0,
    Nat.zero_le _, by show (4 : Int) = 4 * 2 ^ 0; rfl⟩

theorem holds_init {α : Type} : Holds (name_init : Stack α) [] := rfl

theorem pow_two_le_of_le (k : Nat) (n : Nat) (h : n ≤ k) : (2 : Int) ^ n ≤ 2 ^ k :=
  pow_le_pow_right₀ (by norm_num) h

/-- What `name ## _push` does on a well-formed stack whose capacity, if it has
to be doubled, stays within `int`. -/
theorem name_push_spec {α : Type} {s : Stack α} {xs : List α} (v : α)
    (hw : WellFormed s) (hx : Holds s xs)
    (hcap : s.top = s.size → s.size * 2 ≤ INT_MAX) :
    ∃ s', name_push s v = some s' ∧ WellFormed s' ∧ Holds s' (xs ++ [v]) ∧
      s'.top = s.top + 1 ∧ s'.size = (if s.top = s.size then s.size * 2 else s.size) := by
  obtain ⟨h0, h1, hl, k, hk, hsz⟩ := hw
  have hpos : 0 < s.size := by
    have : (0 : Int) < 2 ^ k := by positivity
    omega
  have hn : (s.top + 1).toNat = s.top.toNat + 1 := by omega
  unfold Holds contents at hx
  by_cases ht : s.top = s.size
  · have hc : s.size * 2 ≤ 2147483647 := hcap ht
    refine ⟨_, name_push_of_full s v ht hl hpos (hcap ht), ?_, ?_, rfl, by simp [ht]⟩
    · refine ⟨by show 0 ≤ s.top + 1; omega, by show s.top + 1 ≤ s.size * 2; omega, ?_,
        k + 1, ?_, ?_⟩
      · show (((s.mem ++ List.replicate s.size.toNat none).set s.top.toNat (some v)).length
          : Int) = s.size * 2
        rw [List.length_set, List.length_append, List.length_replicate]; omega
      · by_contra hcon
        have := pow_two_le_of_le k 28 (by omega)
        norm_num at this
        omega
      · show s.size * 2 = 4 * 2 ^ (k + 1)
        rw [hsz]; ring
    · unfold Holds contents
      dsimp only
      rw [hn, take_set_succ _ _ _ (by rw [List.length_append, List.length_replicate]; omega),
        List.take_append_of_le_length (by omega), hx]
      simp
  · have hlt : s.top < s.size := by omega
    refine ⟨_, name_push_of_lt s v h0 hlt hl, ?_, ?_, rfl, by simp [ht]⟩
    · refine ⟨by show 0 ≤ s.top + 1; omega, by show s.top + 1 ≤ s.size; omega, ?_,
        k, hk, hsz⟩
      show ((s.mem.set s.top.toNat (some v)).length : Int) = s.size
      rw [List.length_set]; exact hl
    · unfold Holds contents
      dsimp only
      rw [hn, take_set_succ _ _ _ (by omega), hx]
      simp

/-- What `name ## _pop` does on a well-formed stack holding at least one item. -/
theorem name_pop_spec {α : Type} (zero : α) {s : Stack α} {xs : List α} {v : α}
    (hw : WellFormed s) (hx : Holds s (xs ++ [v])) :
    name_pop zero s = some (v, { s with top := s.top - 1 }) ∧
      WellFormed { s with top := s.top - 1 } ∧ Holds { s with top := s.top - 1 } xs := by
  have hlen := holds_length hw hx
  obtain ⟨h0, h1, hl, hk⟩ := hw
  simp only [List.length_append, List.length_singleton, Nat.cast_add, Nat.cast_one] at hlen
  unfold Holds contents at hx
  have htop : s.top > 0 := by omega
  have hidx : (s.top - 1).toNat = xs.length := by omega
  have hidx2 : s.top.toNat = xs.length + 1 := by omega
  have hget : s.mem.get? xs.length = some (some v) := by
    have h1 : (s.mem.take s.top.toNat).get? xs.length = s.mem.get? xs.length := by
      rw [List.get?_eq_getElem?, List.get?_eq_getElem?, List.getElem?_take]
      simp [hidx2]
    rw [← h1, hx]
    simp
  refine ⟨?_, ⟨by show 0 ≤ s.top - 1; omega, by show s.top - 1 ≤ s.size; omega, hl, hk⟩, ?_⟩
  · unfold name_pop
    rw [if_pos htop]
    simp only [load]
    rw [if_pos (by omega), hidx, hget]
    rfl
  · unfold Holds contents
    dsimp only
    have : s.mem.take xs.length = (s.mem.take (xs.length + 1)).take xs.length := by
      rw [List.take_take]; simp
    rw [hidx, this, ← hidx2, hx]
    simp

/-- What `name ## _pop` does on a stack with `top == bottom`. -/
theorem name_pop_of_empty {α : Type} (zero : α) (s : Stack α) (h : s.top = 0) :
    name_pop zero s = some (zero, s) := by
  unfold name_pop
  rw [if_neg (by omega)]

/-- A push that returns a stack has not overflowed the capacity field. -/
theorem name_push_some_cap {α : Type} {s s' : Stack α} {v : α}
    (h : name_push s v = some s') (ht : s.top = s.size) : s.size * 2 ≤ INT_MAX := by
  by_contra hcon
  have hov : s.size * 2 < INT_MIN ∨ INT_MAX < s.size * 2 := Or.inr (by omega)
  simp only [name_push, if_pos ht, if_pos hov, Option.bind_eq_bind, Option.none_bind] at h
  exact Option.noConfusion h

theorem name_top_snd {α : Type} (s : Stack α) : (name_top s).2 = s := by
  unfold name_top; split <;> rfl

theorem wellFormed_size_pos {α : Type} {s : Stack α} (hw : WellFormed s) : 4 ≤ s.size := by
  obtain ⟨_, _, _, k, _, hsz⟩ := hw
  have : (1 : Int) ≤ 2 ^ k := one_le_pow₀ (by norm_num)
  omega

theorem wellFormed_size_le {α : Type} {s : Stack α} (hw : WellFormed s) :
    s.size ≤ 2 ^ 30 := by
  obtain ⟨_, _, _, k, hk, hsz⟩ := hw
  have := pow_two_le_of_le 28 k hk
  norm_num at this ⊢
  omega

/-- Every reachable stack is well formed and holds a list of items. -/
theorem reachable_wellFormed {α : Type} {zero : α} {s : Stack α}
    (hr : Reachable zero s) : WellFormed s ∧ ∃ xs, Holds s xs := by
  induction hr with
  | init => exact ⟨wellFormed_init, [], holds_init⟩
  | @push s s' v _ hp ih =>
    obtain ⟨hw, xs, hx⟩ := ih
    obtain ⟨s2, h2, hw2, hx2, _⟩ := name_push_spec v hw hx (name_push_some_cap hp)
    rw [hp] at h2
    cases h2
    exact ⟨hw2, _, hx2⟩
  | @pop s s' v _ hp ih =>
    obtain ⟨hw, xs, hx⟩ := ih
    rcases List.eq_nil_or_concat xs with h | ⟨ys, y, rfl⟩
    · subst h
      have h0 : s.top = 0 := by have := holds_length hw hx; simpa using this.symm
      rw [name_pop_of_empty zero s h0] at hp
      cases hp
      exact ⟨hw, [], hx⟩
    · rw [List.concat_eq_append] at hx
      obtain ⟨h1, hw1, hx1⟩ := name_pop_spec zero hw hx
      rw [h1] at hp
      cases hp
      exact ⟨hw1, _, hx1⟩
  | @top s _ ih => rw [name_top_snd]; exact ih
  | @clear s _ ih =>
    obtain ⟨hw, _⟩ := ih
    have h4 := wellFormed_size_pos hw
    obtain ⟨_, _, hl, hk⟩ := hw
    refine ⟨⟨le_refl _, by show (0 : Int) ≤ s.size; omega, hl, hk⟩, [], ?_⟩
    show s.mem.take (0 : Int).toNat = _
    simp

theorem pushAll_append {α : Type} (xs ys : List α) (s : Stack α) :
    pushAll (xs ++ ys) s = (pushAll xs s).bind (pushAll ys) := by
  induction xs generalizing s with
  | nil => rfl
  | cons x xs ih =>
    rw [List.cons_append, pushAll, pushAll]
    cases name_push s x with
    | none => rfl
    | some s1 => rw [Option.some_bind, Option.some_bind, ih]

/-- Pushing a list of items on a reachable stack, while the element count stays
at most `2^30`. -/
theorem pushAll_spec {α : Type} (zero : α) (ys : List α) :
    ∀ (s : Stack α) (xs : List α), Reachable zero s → Holds s xs →
      s.top + ys.length ≤ 2 ^ 30 →
      ∃ s', pushAll ys s = some s' ∧ Reachable zero s' ∧ Holds s' (xs ++ ys) ∧
        s'.top = s.top + ys.length := by
  induction ys with
  | nil =>
    intro s xs hr hx _
    exact ⟨s, rfl, hr, by simpa using hx, by simp⟩
  | cons y ys ih =>
    intro s xs hr hx hn
    simp only [List.length_cons, Nat.cast_add, Nat.cast_one] at hn
    have hw := (reachable_wellFormed hr).1
    have hcap : s.top = s.size → s.size * 2 ≤ INT_MAX := by
      intro ht
      show s.size * 2 ≤ 2147483647
      have : (0 : Int) ≤ (ys.length : Int) := Int.natCast_nonneg _
      norm_num at hn
      omega
    obtain ⟨s1, h1, _, hx1, ht1, _⟩ := name_push_spec y hw hx hcap
    have hr1 : Reachable zero s1 := Reachable.push hr h1
    obtain ⟨s2, h2, hr2, hx2, ht2⟩ := ih s1 (xs ++ [y]) hr1 hx1 (by rw [ht1]; omega)
    refine ⟨s2, ?_, hr2, by simpa using hx2, ?_⟩
    · simp only [pushAll, h1, Option.some_bind, h2]
    · rw [ht2, ht1]; simp only [List.length_cons, Nat.cast_add, Nat.cast_one]; omega

/-- Popping as many items as the list `ys` on top of `xs` returns `ys`, last
pushed first, and leaves a stack holding `xs` in the same block. -/
theorem popAll_spec {α : Type} (zero : α) (ys : List α) :
    ∀ (s : Stack α) (xs : List α), WellFormed s → Holds s (xs ++ ys) →
      ∃ s', popAll zero ys.length s = some (ys.reverse, s') ∧ WellFormed s' ∧
        Holds s' xs ∧ s'.size = s.size ∧ s'.top = s.top - ys.length := by
  induction ys using List.reverseRecOn with
  | nil =>
    intro s xs hw hx
    exact ⟨s, rfl, hw, by simpa using hx, rfl, by simp⟩
  | append_singleton ys y ih =>
    intro s xs hw hx
    rw [← List.append_assoc] at hx
    obtain ⟨h1, hw1, hx1⟩ := name_pop_spec zero hw hx
    obtain ⟨s2, h2, hw2, hx2, hs2, ht2⟩ := ih _ xs hw1 hx1
    refine ⟨s2, ?_, hw2, hx2, hs2, ?_⟩
    · rw [List.length_append, List.length_singleton, popAll, h1, Option.some_bind]
      simp only [h2, Option.map_some', List.reverse_append, List.reverse_singleton,
        List.singleton_append]
    · rw [ht2]
      simp only [List.length_append, List.length_singleton, Nat.cast_add, Nat.cast_one]
      omega

/-- After `2^30` pushes on a fresh stack the block is full at capacity `2^30`. -/
theorem pushAll_replicate_full {α : Type} (zero v : α) (n : Nat) (hn : (n : Int) = 2 ^ 30) :
    pushAll (List.replicate n v) name_init =
        some { mem := List.replicate n (some v), top := n, size := n } ∧
      Reachable zero ({ mem := List.replicate n (some v), top := n, size := n } : Stack α) := by
  obtain ⟨s, h1, hr, hx, ht⟩ := pushAll_spec zero (List.replicate n v) name_init []
    Reachable.init holds_init (by
      rw [List.length_replicate, hn]; show (0 : Int) + 2 ^ 30 ≤ 2 ^ 30; omega)
  have hw := (reachable_wellFormed hr).1
  have hle := wellFormed_size_le hw
  obtain ⟨_, h2, hl, _⟩ := hw
  rw [List.length_replicate] at ht
  have ht' : s.top = n := by rw [ht]; show (0 : Int) + n = n; omega
  have hsz : s.size = n := by omega
  have hmem : s.mem = List.replicate n (some v) := by
    unfold Holds contents at hx
    rw [List.nil_append, List.map_replicate, ht', Int.toNat_ofNat,
      List.take_of_length_le (by omega)] at hx
    exact hx
  have hs : s = { mem := List.replicate n (some v), top := n, size := n } := by
    cases s
    simp only [Stack.mk.injEq]
    exact ⟨hmem, ht', hsz⟩
  rw [← hs]
  exact ⟨h1, hr⟩


/-- On a full stack whose doubled capacity does not fit an `int`, `name ## _push`
has no defined result. -/
theorem name_push_of_overflow {α : Type} (s : Stack α) (v : α) (ht : s.top = s.size)
    (hov : INT_MAX < s.size * 2) : name_push s v = none := by
  simp only [name_push, if_pos ht, if_pos (Or.inr hov : _ ∨ _), Option.bind_eq_bind,
    Option.none_bind]

theorem fullStack_reachable : Reachable (0 : stack_state) fullStack :=
  (pushAll_replicate_full (0 : stack_state) 0 1073741824 (by norm_num)).2

theorem fullStack_pushAll :
    pushAll (List.replicate 1073741824 (0 : stack_state)) name_init = some fullStack :=
  (pushAll_replicate_full (0 : stack_state) 0 1073741824 (by norm_num)).1

theorem reachable_of_pushAll {α : Type} (zero : α) (ys : List α) (s : Stack α)
    (hn : (ys.length : Int) ≤ 2 ^ 30) (h : pushAll ys name_init = some s) :
    Reachable zero s := by
  obtain ⟨s', h1, hr, _⟩ := pushAll_spec zero ys name_init [] Reachable.init holds_init
    (by show (0 : Int) + ys.length ≤ 2 ^ 30; omega)
  rw [h] at h1
  cases h1
  exact hr

/-- The `ss_stack` holding `1, 2, 3, 4` in a block of 4 cells is reachable. -/
theorem reachable_four : Reachable (0 : stack_state) ssStackFour :=
  reachable_of_pushAll 0 [1, 2, 3, 4] _ (by norm_num) (by decide)

/-- The `ss_stack` holding `1, 2` in a block of 4 cells is reachable. -/
theorem reachable_two : Reachable (0 : stack_state) ssStackTwo :=
  reachable_of_pushAll 0 [1, 2] _ (by norm_num) (by decide)

/-! ## Growable stack: pop on empty, last-in-first-out, growth, top -/

/-- C6: on every stack with `top == bottom`, of any member type and zero value,
`name ## _pop` returns the zero value and leaves the stack as it was, so it is
still empty and has the same capacity; this is `0` for `ss_stack` and the
all-zero `literal` for `lit_stack`. On no stack with `bottom ≤ top` does a pop
move `top` below `bottom`. -/
theorem pop_on_empty_returns_zero :
    (∀ (α : Type) (zero : α) (stack : Stack α), stack.top = 0 →
        name_pop zero stack = some (zero, stack)) ∧
      (∀ stack : ss_stack, stack.top = 0 → ss_stack_pop stack = some (0, stack)) ∧
      (∀ (VALUE : Type) [Zero VALUE] (stack : lit_stack VALUE), stack.top = 0 →
        lit_stack_pop stack = some (literal_zero VALUE, stack)) ∧
      (∀ (α : Type) (zero : α) (stack : Stack α) (v : α) (s' : Stack α),
        0 ≤ stack.top → name_pop zero stack = some (v, s') → 0 ≤ s'.top) := by
  refine ⟨fun α zero stack h => name_pop_of_empty zero stack h,
    fun stack h => name_pop_of_empty 0 stack h,
    fun VALUE _ stack h => name_pop_of_empty _ stack h, ?_⟩
  intro α zero stack v s' h0 hp
  unfold name_pop at hp
  by_cases ht : stack.top > 0
  · rw [if_pos ht] at hp
    simp only [Option.map_eq_some'] at hp
    obtain ⟨_, _, he⟩ := hp
    cases he
    show 0 ≤ stack.top - 1
    omega
  · rw [if_neg ht] at hp
    cases hp
    exact h0

/-- C6 on a freshly initialised `ss_stack` and on a cleared `lit_stack`. -/
theorem pop_on_empty_returns_zero_witness :
    (name_init : ss_stack).top = 0 ∧
      ss_stack_pop name_init = some (0, name_init) ∧
      (name_clear litStackOne).top = 0 ∧
      lit_stack_pop (name_clear litStackOne) =
        some (literal_zero Nat, name_clear litStackOne) :=
  ⟨rfl, pop_on_empty_returns_zero.2.1 name_init rfl, rfl,
    pop_on_empty_returns_zero.2.2.1 Nat _ rfl⟩

/-- C7, the claim as stated fails on a reachable stack: `fullStack`, reached by
`2^30` pushes, is full at capacity `2^30`; a further `ss_stack_push` has to
compute `size * 2 = 2^31` in `int`, which does not fit, so the push has no
defined result and no pop can return the pushed item. -/
theorem push_on_full_stack_at_int_limit :
    Reachable (0 : stack_state) fullStack ∧
      Holds fullStack (List.replicate 1073741824 (0 : stack_state)) ∧
      ss_stack_push fullStack 7 = none ∧
      ¬ ∃ s1 s2, ss_stack_push fullStack 7 = some s1 ∧ ss_stack_pop s1 = some (7, s2) := by
  have hp : ss_stack_push fullStack 7 = none :=
    name_push_of_overflow fullStack 7 rfl (by decide)
  refine ⟨fullStack_reachable, ?_, hp, ?_⟩
  · show List.take (1073741824 : Int).toNat (List.replicate 1073741824 (some 0)) =
      List.map some (List.replicate 1073741824 (0 : stack_state))
    rw [List.map_replicate, List.take_of_length_le]
    rw [List.length_replicate]; exact le_of_eq rfl
  · rintro ⟨s1, _, h1, _⟩
    rw [hp] at h1
    exact Option.noConfusion h1

/-- C7 (amended): on every reachable stack that holds the items `xs` and fewer
than `2^30` of them, `push(v)` followed by `pop` returns `v` and leaves a stack
holding `xs` again, with the same cells between `bottom` and `top`, whether or
not the push doubled the capacity (it does exactly when the stack was full). -/
theorem push_then_pop_returns_item {α : Type} (zero : α) (s : Stack α) (xs : List α)
    (v : α) (hr : Reachable zero s) (hx : Holds s xs) (hd : s.top < 2 ^ 30) :
    ∃ s1 s2, name_push s v = some s1 ∧ name_pop zero s1 = some (v, s2) ∧
      Holds s2 xs ∧ contents s2 = contents s ∧
      s1.size = (if s.top = s.size then s.size * 2 else s.size) := by
  have hw := (reachable_wellFormed hr).1
  have hcap : s.top = s.size → s.size * 2 ≤ INT_MAX := by
    intro ht
    show s.size * 2 ≤ 2147483647
    omega
  obtain ⟨s1, h1, hw1, hx1, _, hs1⟩ := name_push_spec v hw hx hcap
  obtain ⟨h2, _, hx2⟩ := name_pop_spec zero hw1 hx1
  exact ⟨s1, _, h1, h2, hx2, hx2.trans hx.symm, hs1⟩

/-- C7 (amended) on the full `ss_stack` holding `1, 2, 3, 4`, where the push of
the snapshot `-5` doubles the capacity. -/
theorem push_then_pop_returns_item_witness :
    Reachable (0 : stack_state) ssStackFour ∧ Holds ssStackFour [1, 2, 3, 4] ∧
      ssStackFour.top < 2 ^ 30 ∧
      ∃ s1 s2, name_push ssStackFour (-5) = some s1 ∧ name_pop 0 s1 = some (-5, s2) ∧
        Holds s2 [1, 2, 3, 4] ∧ contents s2 = contents ssStackFour ∧
        s1.size = (if ssStackFour.top = ssStackFour.size then ssStackFour.size * 2
          else ssStackFour.size) :=
  ⟨reachable_four, rfl, by decide,
    push_then_pop_returns_item 0 ssStackFour [1, 2, 3, 4] (-5) reachable_four rfl
      (by decide)⟩

/-- C8, the claim as stated fails for `n = 2^30 + 1`: pushing that many items
on a fresh `ss_stack` does not succeed, because the last push finds the stack
full at capacity `2^30` and `size * 2` does not fit the `int` field. -/
theorem push_all_beyond_int_capacity :
    pushAll (List.replicate 1073741824 (0 : stack_state) ++ [0]) name_init = none ∧
      (List.replicate 1073741824 (0 : stack_state) ++ [0]).length = 2 ^ 30 + 1 := by
  constructor
  · rw [pushAll_append, fullStack_pushAll, Option.some_bind, pushAll,
      name_push_of_overflow fullStack 0 rfl (by decide)]
    rfl
  · rw [List.length_append, List.length_replicate]; rfl

/-- C8 (amended): for every sequence of at most `2^30` items, pushing them in
order on a freshly initialised stack succeeds, the stack then holds exactly
these items in push order, and as many pops return them in reverse order and
leave the stack empty. -/
theorem push_all_then_pop_all {α : Type} (zero : α) (xs : List α)
    (hn : (xs.length : Int) ≤ 2 ^ 30) :
    ∃ s s', pushAll xs name_init = some s ∧ Holds s xs ∧ s.top = xs.length ∧
      popAll zero xs.length s = some (xs.reverse, s') ∧ s'.top = 0 ∧ contents s' = [] := by
  obtain ⟨s, h1, hr, hx, ht⟩ := pushAll_spec zero xs name_init [] Reachable.init holds_init
    (by show (0 : Int) + xs.length ≤ 2 ^ 30; omega)
  have ht' : s.top = xs.length := by rw [ht]; show (0 : Int) + xs.length = xs.length; omega
  obtain ⟨s', h2, _, hx2, _, ht2⟩ := popAll_spec zero xs s [] (reachable_wellFormed hr).1 hx
  rw [List.nil_append] at hx
  exact ⟨s, s', h1, hx, ht', h2, by rw [ht2, ht']; omega, hx2⟩

/-- C8 (amended) on the five items `1, 2, 3, 4, 5` of an `ss_stack`, which take
one doubling of the block. -/
theorem push_all_then_pop_all_witness :
    (([1, 2, 3, 4, 5] : List stack_state).length : Int) ≤ 2 ^ 30 ∧
      ∃ s s', pushAll ([1, 2, 3, 4, 5] : List stack_state) name_init = some s ∧
        Holds s [1, 2, 3, 4, 5] ∧ s.top = ([1, 2, 3, 4, 5] : List stack_state).length ∧
        popAll 0 ([1, 2, 3, 4, 5] : List stack_state).length s =
          some (([1, 2, 3, 4, 5] : List stack_state).reverse, s') ∧
        s'.top = 0 ∧ contents s' = [] :=
  ⟨by decide, push_all_then_pop_all 0 [1, 2, 3, 4, 5] (by decide)⟩

/-- C9, the claim as stated fails on a reachable stack: `fullStack` holds `2^30`
items in a block of `2^30` cells, and `ss_stack_push` on it does not result in a
stack of capacity `2 * 2^30`, a value that the `int` field `size` cannot hold. -/
theorem full_stack_capacity_cannot_double :
    Reachable (0 : stack_state) fullStack ∧ fullStack.top = fullStack.size ∧
      fullStack.size = 2 ^ 30 ∧ INT_MAX < 2 * fullStack.size ∧
      ¬ ∃ s', ss_stack_push fullStack 0 = some s' ∧ s'.size = 2 * fullStack.size := by
  refine ⟨fullStack_reachable, rfl, by decide, by decide, ?_⟩
  rintro ⟨s', h1, _⟩
  have hp : ss_stack_push fullStack 0 = none :=
    name_push_of_overflow fullStack 0 rfl (by decide)
  rw [hp] at h1
  exact Option.noConfusion h1

/-- C9 (amended): on every reachable stack holding the items `xs`, a push on a
full stack (`top == bottom + size`) of capacity below `2^30` results in a
capacity of exactly twice the old one, with `xs` kept in order below the new
item; a push on a stack that is not full leaves the capacity unchanged; and a
freshly initialised stack has capacity 4 and is empty. -/
theorem push_doubles_capacity_when_full {α : Type} (zero : α) (s : Stack α)
    (xs : List α) (v : α) (hr : Reachable zero s) (hx : Holds s xs) :
    (s.top = s.size → s.size < 2 ^ 30 →
        ∃ s', name_push s v = some s' ∧ s'.size = 2 * s.size ∧ Holds s' (xs ++ [v])) ∧
      (s.top < s.size →
        ∃ s', name_push s v = some s' ∧ s'.size = s.size ∧ Holds s' (xs ++ [v])) ∧
      (name_init : Stack α).size = 4 ∧ (name_init : Stack α).top = 0 ∧
      contents (name_init : Stack α) = [] := by
  have hw := (reachable_wellFormed hr).1
  refine ⟨?_, ?_, rfl, rfl, rfl⟩
  · intro ht hlt
    have hcap : s.top = s.size → s.size * 2 ≤ INT_MAX := by
      intro _
      show s.size * 2 ≤ 2147483647
      omega
    obtain ⟨s1, h1, _, hx1, _, hs1⟩ := name_push_spec v hw hx hcap
    rw [if_pos ht] at hs1
    exact ⟨s1, h1, by rw [hs1]; ring, hx1⟩
  · intro hlt
    have hne : s.top ≠ s.size := by omega
    obtain ⟨s1, h1, _, hx1, _, hs1⟩ := name_push_spec v hw hx (fun h => absurd h hne)
    rw [if_neg hne] at hs1
    exact ⟨s1, h1, hs1, hx1⟩

/-- C9 (amended) on the full `ss_stack` holding `1, 2, 3, 4`: the push results
in capacity 8. -/
theorem push_doubles_capacity_when_full_witness :
    Reachable (0 : stack_state) ssStackFour ∧ Holds ssStackFour [1, 2, 3, 4] ∧
      ssStackFour.top = ssStackFour.size ∧ ssStackFour.size < 2 ^ 30 ∧
      ∃ s', name_push ssStackFour 9 = some s' ∧ s'.size = 2 * ssStackFour.size ∧
        Holds s' ([1, 2, 3, 4] ++ [9]) :=
  ⟨reachable_four, rfl, rfl, by decide,
    (push_doubles_capacity_when_full 0 ssStackFour [1, 2, 3, 4] 9 reachable_four rfl).1 rfl
      (by decide)⟩

/-- C10: on every reachable stack, `name ## _top` returns `NULL` exactly when
the stack is empty; otherwise it returns the pointer to the cell just below
`top`, which holds the last item of the contents, the item that `name ## _pop`
returns next; and `name ## _top` leaves the stack, hence its contents, element
count and capacity, as it was. -/
theorem top_points_at_last_item {α : Type} (zero : α) (s : Stack α)
    (hr : Reachable zero s) :
    ((name_top s).1 = none ↔ contents s = []) ∧
      ((name_top s).1 = none ↔ s.top = 0) ∧
      (∀ p, (name_top s).1 = some p →
        ∃ v s', load s.mem p = some v ∧ (contents s).getLast? = some (some v) ∧
          name_pop zero s = some (v, s')) ∧
      (name_top s).2 = s := by
  obtain ⟨hw, xs, hx⟩ := reachable_wellFormed hr
  have hlen := holds_length hw hx
  have h0 := hw.1
  have hnil : contents s = [] ↔ s.top = 0 := by
    rw [hx]
    constructor
    · intro h
      have : xs = [] := by simpa using h
      subst this
      simpa using hlen.symm
    · intro h
      have : xs.length = 0 := by omega
      rw [List.length_eq_zero.mp this]; rfl
  have htop : (name_top s).1 = none ↔ s.top = 0 := by
    unfold name_top
    by_cases ht : s.top > 0
    · rw [if_pos ht]
      constructor
      · intro h; cases h
      · intro h; omega
    · rw [if_neg ht]
      constructor
      · intro _; omega
      · intro _; rfl
  refine ⟨htop.trans hnil.symm, htop, ?_, name_top_snd s⟩
  intro p hp
  rcases List.eq_nil_or_concat xs with h | ⟨ys, y, rfl⟩
  · subst h
    have : s.top = 0 := by simpa using hlen.symm
    rw [htop.mpr this] at hp
    cases hp
  · rw [List.concat_eq_append] at hx hlen
    obtain ⟨h1, _, _⟩ := name_pop_spec zero hw hx
    have hpos : s.top > 0 := by
      simp only [List.length_append, List.length_singleton, Nat.cast_add, Nat.cast_one]
        at hlen
      omega
    have hp' : p = s.top - 1 := by
      unfold name_top at hp
      rw [if_pos hpos] at hp
      cases hp
      rfl
    have hload : load s.mem (s.top - 1) = some y := by
      unfold name_pop at h1
      rw [if_pos hpos] at h1
      simp only [Option.map_eq_some'] at h1
      obtain ⟨a, ha, he⟩ := h1
      cases he
      exact ha
    refine ⟨y, _, by rw [hp']; exact hload, ?_, h1⟩
    rw [hx]
    simp

/-- C10 on the `ss_stack` holding `1, 2`: the pointer returned is `bottom + 1`,
the cell holding `2`. -/
theorem top_points_at_last_item_witness :
    Reachable (0 : stack_state) ssStackTwo ∧
      (((name_top ssStackTwo).1 = none ↔ contents ssStackTwo = []) ∧
        ((name_top ssStackTwo).1 = none ↔ ssStackTwo.top = 0) ∧
        (∀ p, (name_top ssStackTwo).1 = some p →
          ∃ v s', load ssStackTwo.mem p = some v ∧
            (contents ssStackTwo).getLast? = some (some v) ∧
            name_pop 0 ssStackTwo = some (v, s')) ∧
        (name_top ssStackTwo).2 = ssStackTwo) :=
  ⟨reachable_two, top_points_at_last_item 0 ssStackTwo reachable_two⟩

/-! ## Literal kinds -/

/-- C14: the enumeration `str_type` has exactly 19 variants besides the
sentinel `INVALID`; their values are `0` to `18` in the order single-quote,
double-quote, `%q`, `%Q`, heredoc-single, heredoc-double, bare-percent, `%w`,
`%W`, `%i`, `%I`, symbol-single, symbol-double, `%s`, regexp-slash, `%r`, `%x`,
backtick, heredoc-backtick; the values are pairwise distinct, and `INVALID` has
the value `19`, different from that of every other variant. -/
theorem str_type_has_nineteen_valid_variants :
    (str_type_enumerators.filter (fun t => decide (t ≠ str_type.INVALID))).length = 19 ∧
      (∀ t : str_type, t ∈ str_type_enumerators) ∧
      str_type_enumerators.Nodup ∧
      (str_type_value str_type.SINGLE_QUOTE = 0 ∧
        str_type_value str_type.DOUBLE_QUOTE = 1 ∧
        str_type_value str_type.PERCENT_Q = 2 ∧
        str_type_value str_type.BIG_PERCENT_Q = 3 ∧
        str_type_value str_type.LSHFT_SINGLE_QUOT = 4 ∧
        str_type_value str_type.LSHFT_DOUBLE_QUOT = 5 ∧
        str_type_value str_type.BARE_PERCENT = 6 ∧
        str_type_value str_type.PERCENT_W = 7 ∧
        str_type_value str_type.BIG_PERCENT_W = 8 ∧
        str_type_value str_type.PERCENT_I = 9 ∧
        str_type_value str_type.BIG_PERCENT_I = 10 ∧
        str_type_value str_type.SYM_SINGLE_QUOT = 11 ∧
        str_type_value str_type.SYM_DOUBLE_QUOT = 12 ∧
        str_type_value str_type.PERCENT_S = 13 ∧
        str_type_value str_type.SLASH = 14 ∧
        str_type_value str_type.PERCENT_R = 15 ∧
        str_type_value str_type.PERCENT_X = 16 ∧
        str_type_value str_type.BACKTICK = 17 ∧
        str_type_value str_type.LSHFT_BACKTICK = 18 ∧
        str_type_value str_type.INVALID = 19) ∧
      (∀ a b : str_type, str_type_value a = str_type_value b → a = b) ∧
      (∀ t : str_type, t ≠ str_type.INVALID ↔ (0 ≤ str_type_value t ∧ str_type_value t ≤ 18)) ∧
      (∀ t : str_type, t ≠ str_type.INVALID →
        str_type_value t ≠ str_type_value str_type.INVALID) := by
  refine ⟨by decide, ?_, by decide, by decide, ?_, ?_, ?_⟩
  · intro t; cases t <;> decide
  · intro a b; cases a <;> cases b <;> decide
  · intro t; cases t <;> decide
  · intro t; cases t <;> decide

/-! ## Growable stack: clear, and pop on an empty literal stack -/

/-- C11: on every reachable stack, whatever it holds, `name ## _clear` leaves an
empty stack: `name ## _top` returns `NULL` and `name ## _pop` returns the zero
value; the capacity and the block are those from before the clear; and a
following `push(v); pop()` returns `v` and leaves the stack empty again. -/
theorem clear_empties_and_keeps_capacity {α : Type} (zero : α) (s : Stack α) (v : α)
    (hr : Reachable zero s) :
    contents (name_clear s) = [] ∧
      (name_top (name_clear s)).1 = none ∧
      name_pop zero (name_clear s) = some (zero, name_clear s) ∧
      (name_clear s).size = s.size ∧ (name_clear s).mem = s.mem ∧
      ∃ s1 s2, name_push (name_clear s) v = some s1 ∧ s1.size = s.size ∧
        name_pop zero s1 = some (v, s2) ∧ contents s2 = [] := by
  have hrc : Reachable zero (name_clear s) := Reachable.clear hr
  have hw := (reachable_wellFormed hrc).1
  have h4 := wellFormed_size_pos hw
  have hx : Holds (name_clear s) [] := by
    show List.take (0 : Int).toNat s.mem = _
    simp
  have hne : (name_clear s).top ≠ (name_clear s).size := by
    show (0 : Int) ≠ (name_clear s).size
    omega
  obtain ⟨s1, h1, hw1, hx1, _, hs1⟩ :=
    name_push_spec v hw hx (fun h => absurd h hne)
  rw [if_neg hne] at hs1
  obtain ⟨h2, _, hx2⟩ := name_pop_spec zero hw1 hx1
  exact ⟨hx, rfl, name_pop_of_empty zero _ rfl, rfl, rfl, s1, _, h1, hs1, h2, hx2⟩

/-- C11 on the full `ss_stack` holding `1, 2, 3, 4`, cleared and then used for
`push(9); pop()`. -/
theorem clear_empties_and_keeps_capacity_witness :
    Reachable (0 : stack_state) ssStackFour ∧
      (contents (name_clear ssStackFour) = [] ∧
        (name_top (name_clear ssStackFour)).1 = none ∧
        name_pop 0 (name_clear ssStackFour) = some (0, name_clear ssStackFour) ∧
        (name_clear ssStackFour).size = ssStackFour.size ∧
        (name_clear ssStackFour).mem = ssStackFour.mem ∧
        ∃ s1 s2, name_push (name_clear ssStackFour) 9 = some s1 ∧
          s1.size = ssStackFour.size ∧ name_pop 0 s1 = some (9, s2) ∧ contents s2 = []) :=
  ⟨reachable_four, clear_empties_and_keeps_capacity 0 ssStackFour 9 reachable_four⟩

/-- C19: on a `lit_stack` with `top == bottom`, `lit_stack_pop` returns the
`literal` whose members are all zero and leaves the stack as it was; the
`str_type` of that descriptor is `SINGLE_QUOTE`, the enumerator of value `0`,
and not `INVALID`; its `nesting` and `interpolate` are `0`; and `lit_stack_top`
on the same stack returns `NULL`. -/
theorem pop_on_empty_lit_stack_looks_valid {VALUE : Type} [Zero VALUE]
    (stack : lit_stack VALUE) (h : stack.top = 0) :
    lit_stack_pop stack = some (literal_zero VALUE, stack) ∧
      (literal_zero VALUE).str_type = str_type.SINGLE_QUOTE ∧
      str_type_value (literal_zero VALUE).str_type = 0 ∧
      (literal_zero VALUE).str_type ≠ str_type.INVALID ∧
      (literal_zero VALUE).nesting = 0 ∧ (literal_zero VALUE).interpolate = 0 ∧
      ((literal_zero VALUE).lexer = 0 ∧ (literal_zero VALUE).buffer = 0 ∧
        (literal_zero VALUE).buffer_s = 0 ∧ (literal_zero VALUE).buffer_e = 0 ∧
        (literal_zero VALUE).start_tok = 0 ∧ (literal_zero VALUE).start_delim = 0 ∧
        (literal_zero VALUE).end_delim = 0 ∧ (literal_zero VALUE).delimiter = 0 ∧
        (literal_zero VALUE).heredoc_e = 0 ∧ (literal_zero VALUE).str_s = 0 ∧
        (literal_zero VALUE).herebody_s = 0 ∧ (literal_zero VALUE).indent = 0 ∧
        (literal_zero VALUE).label_allowed = 0 ∧ (literal_zero VALUE).interp_braces = 0 ∧
        (literal_zero VALUE).space_emitted = 0 ∧ (literal_zero VALUE).monolithic = 0 ∧
        (literal_zero VALUE).dedent_body = 0 ∧ (literal_zero VALUE).dedent_level = 0) ∧
      (lit_stack_top stack).1 = none ∧ (lit_stack_top stack).2 = stack := by
  refine ⟨name_pop_of_empty _ stack h, rfl,
    (by show str_type_value str_type.SINGLE_QUOTE = 0; decide),
    (by show str_type.SINGLE_QUOTE ≠ str_type.INVALID; decide), rfl, rfl,
    ⟨rfl, rfl, rfl, rfl, rfl, rfl, rfl, rfl, rfl, rfl, rfl, rfl, rfl, rfl, rfl, rfl, rfl,
      rfl⟩, ?_, name_top_snd stack⟩
  unfold lit_stack_top name_top
  rw [if_neg (by omega)]

/-- C19 on a freshly initialised `lit_stack` over `VALUE = Nat`. -/
theorem pop_on_empty_lit_stack_looks_valid_witness :
    (name_init : lit_stack Nat).top = 0 ∧
      lit_stack_pop (name_init : lit_stack Nat) = some (literal_zero Nat, name_init) ∧
      str_type_value (literal_zero Nat).str_type = 0 ∧
      (lit_stack_top (name_init : lit_stack Nat)).1 = none :=
  ⟨rfl, (pop_on_empty_lit_stack_looks_valid (name_init : lit_stack Nat) rfl).1,
    (pop_on_empty_lit_stack_looks_valid (name_init : lit_stack Nat) rfl).2.2.1,
    (pop_on_empty_lit_stack_looks_valid (name_init : lit_stack Nat) rfl).2.2.2.2.2.2.2.1⟩

/-! ## Context bit-stack: the coded effect of `lexpop`, depth, and the missing guard -/

/-- C15: for every state `s` with `0 ≤ s < 2^30`: if the top bit of `s` is `1`,
`stack_state_lexpop` returns `1` and leaves the state `s`, no frame being
removed; if the top bit is `0`, it returns `(s >> 1) & 1` and leaves the state
`s >> 1`, one frame fewer. -/
theorem lexpop_effect_as_coded (s : Int) (h0 : 0 ≤ s) (h1 : s < 2 ^ 30) :
    (Int.land s 1 = 1 → stack_state_lexpop s = (1, s)) ∧
      (Int.land s 1 = 0 →
        stack_state_lexpop s = (Int.land (Int.shiftRight s 1) 1, Int.shiftRight s 1)) := by
  rw [int_land_one, int_land_one, int_shr_one, stack_state_lexpop_eq]
  constructor
  · intro h
    rw [if_pos (by omega)]
    have hw : wrap32 (s / 2 * 2) = s / 2 * 2 := by unfold wrap32; omega
    rw [hw]
    have : s / 2 * 2 + 1 = s := by omega
    rw [this]
  · intro h
    rw [if_neg (by omega)]
    have hb : s / 2 % 2 = 0 ∨ s / 2 % 2 = 1 := by omega
    have hn : normBit (s / 2 % 2) = s / 2 % 2 := by
      unfold normBit; rcases hb with h | h <;> simp [h]
    have hw : wrap32 (s / 2 / 2 * 2) = s / 2 / 2 * 2 := by unfold wrap32; omega
    rw [hn, hw]
    have : s / 2 / 2 * 2 + s / 2 % 2 = s / 2 := by omega
    rw [this]

/-- C15 on the states `5` (top bit `1`) and `6` (top bit `0`, next bit `1`). -/
theorem lexpop_effect_as_coded_witness :
    ((0 : Int) ≤ 5 ∧ (5 : Int) < 2 ^ 30 ∧ Int.land 5 1 = 1 ∧
        stack_state_lexpop 5 = (1, 5)) ∧
      ((0 : Int) ≤ 6 ∧ (6 : Int) < 2 ^ 30 ∧ Int.land 6 1 = 0 ∧
        stack_state_lexpop 6 = (Int.land (Int.shiftRight 6 1) 1, Int.shiftRight 6 1)) :=
  ⟨⟨by decide, by decide, by decide,
      (lexpop_effect_as_coded 5 (by decide) (by decide)).1 (by decide)⟩,
    ⟨by decide, by decide, by decide,
      (lexpop_effect_as_coded 6 (by decide) (by decide)).2 (by decide)⟩⟩

/-- C17: on the empty stack, state `0`, `stack_state_pop` returns `0` and leaves
`0`, `stack_state_active` returns `0`, and `stack_state_push(0)` leaves `0`; so
for every `n` the state after `n` pushes of `0` on the empty stack is the empty
state `0` itself: a stack of `n` false frames and the empty stack are the same
value of `stack_state`, which no operation can tell apart. -/
theorem bit_stack_does_not_record_depth :
    stack_state_pop 0 = (0, 0) ∧ stack_state_active 0 = (0, 0) ∧
      stack_state_push 0 0 = (0, 0) ∧ stack_state_lexpop 0 = (0, 0) ∧
      (∀ n : Nat, pushBits (List.replicate n 0) 0 = 0) ∧
      (∀ n : Nat, stack_state_pop (pushBits (List.replicate n 0) 0) = stack_state_pop 0 ∧
        stack_state_active (pushBits (List.replicate n 0) 0) = stack_state_active 0) := by
  have hp : ∀ n : Nat, pushBits (List.replicate n 0) 0 = 0 := by
    intro n
    induction n with
    | zero => rfl
    | succ n ih =>
      rw [List.replicate_succ, pushBits]
      exact ih
  refine ⟨by decide, by decide, by decide, by decide, hp, ?_⟩
  intro n
  rw [hp n]
  exact ⟨rfl, rfl⟩

/-- C18: `stack_state_push` has a result on every state: it returns the
normalised bit, nothing else, and stores a state within the range of `int`; the
stored state does not depend on the highest bit of the old one. On the state
`-2^31`, whose only frame sits in the highest bit, `push(1)` followed by
`pop()` returns `1` and leaves the state `0`, not `-2^31`. -/
theorem push_has_no_depth_guard :
    (∀ s b : Int, (stack_state_push s b).1 = (if b ≠ 0 then 1 else 0) ∧
        INT_MIN ≤ (stack_state_push s b).2 ∧ (stack_state_push s b).2 ≤ INT_MAX) ∧
      (∀ s b : Int, stack_state_push (s + 2147483648) b = stack_state_push s b) ∧
      (INT_MIN ≤ (-2147483648 : Int) ∧ (-2147483648 : Int) ≤ INT_MAX ∧
        stack_state_push (-2147483648) 1 = (1, 1) ∧
        stack_state_pop (stack_state_push (-2147483648) 1).2 = (1, 0) ∧
        (stack_state_pop (stack_state_push (-2147483648) 1).2).2 ≠ -2147483648) := by
  have hpush : stack_state_push (-2147483648) 1 = (1, 1) := by
    rw [stack_state_push_eq]; rfl
  refine ⟨?_, ?_, by decide, by decide, hpush, ?_, ?_⟩
  · intro s b
    rw [stack_state_push_eq]
    have hb := normBit_cases b
    have he := wrap32_even s
    refine ⟨rfl, ?_, ?_⟩
    · show (-2147483648 : Int) ≤ wrap32 (s * 2) + normBit b
      unfold wrap32 at he ⊢; omega
    · show wrap32 (s * 2) + normBit b ≤ (2147483647 : Int)
      unfold wrap32 at he ⊢; omega
  · intro s b
    rw [stack_state_push_eq, stack_state_push_eq]
    have : wrap32 ((s + 2147483648) * 2) = wrap32 (s * 2) := by unfold wrap32; omega
    rw [this]
  · rw [hpush]; decide
  · rw [hpush]; decide

/-! ## Growable stack: representation invariant -/

theorem runOp_reachable {α : Type} {zero : α} {s s' : Stack α} (op : StackOp α)
    (hr : Reachable zero s) (h : runOp zero s op = some s') :
    Reachable zero s' ∧ s.size ≤ s'.size := by
  have hw := (reachable_wellFormed hr).1
  cases op with
  | push item =>
    obtain ⟨xs, hx⟩ := (reachable_wellFormed hr).2
    have hp : name_push s item = some s' := h
    obtain ⟨s2, h2, _, _, _, hs2⟩ := name_push_spec item hw hx (name_push_some_cap hp)
    rw [hp] at h2
    cases h2
    refine ⟨Reachable.push hr hp, ?_⟩
    have := wellFormed_size_pos hw
    rw [hs2]
    split <;> omega
  | pop =>
    have hp : (name_pop zero s).map Prod.snd = some s' := h
    simp only [Option.map_eq_some'] at hp
    obtain ⟨⟨v, t⟩, hvt, he⟩ := hp
    cases he
    refine ⟨Reachable.pop hr hvt, ?_⟩
    unfold name_pop at hvt
    split at hvt
    · simp only [Option.map_eq_some'] at hvt
      obtain ⟨_, _, he⟩ := hvt
      cases he
      exact le_refl _
    · cases hvt
      exact le_refl _
  | top =>
    have hp : some (name_top s).2 = some s' := h
    cases hp
    exact ⟨Reachable.top hr, by rw [name_top_snd]⟩
  | clear =>
    have hp : some (name_clear s) = some s' := h
    cases hp
    exact ⟨Reachable.clear hr, le_refl _⟩

theorem runOps_reachable {α : Type} {zero : α} (ops : List (StackOp α)) :
    ∀ {s s' : Stack α}, Reachable zero s → runOps zero ops s = some s' →
      Reachable zero s' ∧ s.size ≤ s'.size := by
  induction ops with
  | nil =>
    intro s s' hr h
    cases h
    exact ⟨hr, le_refl _⟩
  | cons op ops ih =>
    intro s s' hr h
    rw [runOps] at h
    cases h1 : runOp zero s op with
    | none => rw [h1] at h; exact Option.noConfusion h
    | some s1 =>
      rw [h1, Option.some_bind] at h
      obtain ⟨hr1, hs1⟩ := runOp_reachable op hr h1
      obtain ⟨hr2, hs2⟩ := ih hr1 h
      exact ⟨hr2, le_trans hs1 hs2⟩

/-- On a reachable stack the only operation without a defined result is a push
that has to double a capacity whose double does not fit an `int`. -/
theorem runOp_none_only_overflow {α : Type} {zero : α} {s : Stack α} (op : StackOp α)
    (hr : Reachable zero s) (h : runOp zero s op = none) :
    ∃ item, op = StackOp.push item ∧ s.top = s.size ∧ INT_MAX < s.size * 2 := by
  obtain ⟨hw, xs, hx⟩ := reachable_wellFormed hr
  cases op with
  | push item =>
    refine ⟨item, rfl, ?_⟩
    by_contra hcon
    have hcap : s.top = s.size → s.size * 2 ≤ INT_MAX := by
      intro ht
      by_contra hlt
      exact hcon ⟨ht, by omega⟩
    obtain ⟨s1, h1, _⟩ := name_push_spec item hw hx hcap
    have hp : name_push s item = none := h
    rw [hp] at h1
    exact Option.noConfusion h1
  | pop =>
    have hp : (name_pop zero s).map Prod.snd = none := h
    rcases List.eq_nil_or_concat xs with hxs | ⟨ys, y, rfl⟩
    · subst hxs
      have h0 : s.top = 0 := by have := holds_length hw hx; simpa using this.symm
      rw [name_pop_of_empty zero s h0] at hp
      exact Option.noConfusion hp
    · rw [List.concat_eq_append] at hx
      rw [(name_pop_spec zero hw hx).1] at hp
      exact Option.noConfusion hp
  | top => exact Option.noConfusion h
  | clear => exact Option.noConfusion h

/-- C16: every stack reached from `name ## _init` by a sequence of pushes, pops,
tops and clears, none of which overflows the `int` capacity, satisfies
`0 ≤ element count ≤ capacity`, its block has as many cells as its capacity,
and its capacity is `4 * 2^k` for some `k ≥ 0`; a stack reached from it by a
further such sequence has at least the same capacity; and the only operation
without a defined result on it is a push that would overflow the capacity. -/
theorem stack_representation_invariant {α : Type} (zero : α)
    (ops more : List (StackOp α)) (s s' : Stack α)
    (h : runOps zero ops name_init = some s) (h' : runOps zero more s = some s') :
    (0 ≤ s.top ∧ s.top ≤ s.size ∧ (s.mem.length : Int) = s.size ∧
        ∃ k : Nat, s.size = 4 * 2 ^ k) ∧
      (0 ≤ s'.top ∧ s'.top ≤ s'.size ∧ (s'.mem.length : Int) = s'.size ∧
        ∃ k : Nat, s'.size = 4 * 2 ^ k) ∧
      (name_init : Stack α).size ≤ s.size ∧ s.size ≤ s'.size ∧
      (∀ op : StackOp α, runOp zero s op = none →
        ∃ item, op = StackOp.push item ∧ s.top = s.size ∧ INT_MAX < s.size * 2) := by
  obtain ⟨hr, hs⟩ := runOps_reachable ops Reachable.init h
  obtain ⟨hr', hs'⟩ := runOps_reachable more hr h'
  obtain ⟨h0, h1, hl, k, _, hk⟩ := (reachable_wellFormed hr).1
  obtain ⟨h0', h1', hl', k', _, hk'⟩ := (reachable_wellFormed hr').1
  exact ⟨⟨h0, h1, hl, k, hk⟩, ⟨h0', h1', hl', k', hk'⟩, hs, hs',
    fun op hn => runOp_none_only_overflow op hr hn⟩

/-- C16 on an `ss_stack`: five pushes and a pop, then a clear, a top and a push. -/
theorem stack_representation_invariant_witness :
    runOps 0 opsGrow name_init = some ssStackGrown ∧
      runOps 0 opsReuse ssStackGrown = some ssStackReused ∧
      (0 ≤ ssStackGrown.top ∧ ssStackGrown.top ≤ ssStackGrown.size ∧
        (ssStackGrown.mem.length : Int) = ssStackGrown.size ∧
        ∃ k : Nat, ssStackGrown.size = 4 * 2 ^ k) ∧
      (0 ≤ ssStackReused.top ∧ ssStackReused.top ≤ ssStackReused.size ∧
        (ssStackReused.mem.length : Int) = ssStackReused.size ∧
        ∃ k : Nat, ssStackReused.size = 4 * 2 ^ k) ∧
      (name_init : ss_stack).size ≤ ssStackGrown.size ∧
      ssStackGrown.size ≤ ssStackReused.size ∧
      (∀ op : StackOp stack_state, runOp 0 ssStackGrown op = none →
        ∃ item, op = StackOp.push item ∧ ssStackGrown.top = ssStackGrown.size ∧
          INT_MAX < ssStackGrown.size * 2) :=
  ⟨by decide, by decide,
    stack_representation_invariant 0 opsGrow opsReuse ssStackGrown ssStackReused
      (by decide) (by decide)⟩

/-! ## Literal descriptor: nesting invariant and interpolation balance -/

theorem feedDelimiters_cons {VALUE : Type} [DecidableEq VALUE] (lit : literal VALUE)
    (d : VALUE) (ds : List VALUE) :
    feedDelimiters lit (d :: ds) =
      (((literal_nest_and_close lit d).1, (literal_nest_and_close lit d).2.nesting) ::
          (feedDelimiters (literal_nest_and_close lit d).2 ds).1,
        (feedDelimiters (literal_nest_and_close lit d).2 ds).2) := rfl

theorem feedDelimiters_append {VALUE : Type} [DecidableEq VALUE] (u v : List VALUE) :
    ∀ lit : literal VALUE, feedDelimiters lit (u ++ v) =
      ((feedDelimiters lit u).1 ++ (feedDelimiters (feedDelimiters lit u).2 v).1,
        (feedDelimiters (feedDelimiters lit u).2 v).2) := by
  induction u with
  | nil => intro lit; rfl
  | cons d u ih =>
    intro lit
    rw [List.cons_append, feedDelimiters_cons, ih, feedDelimiters_cons]
    rfl

theorem literal_nest_and_close_nonneg {VALUE : Type} [DecidableEq VALUE]
    (l : literal VALUE) (d : VALUE) (h : 0 ≤ l.nesting) :
    0 ≤ (literal_nest_and_close l d).2.nesting := by
  unfold literal_nest_and_close
  split
  · show 0 ≤ l.nesting + 1; omega
  · split
    · split
      · exact h
      · split
        · show 0 ≤ l.nesting - 1; omega
        · exact h
    · exact h

theorem literal_nest_and_close_start {VALUE : Type} [DecidableEq VALUE]
    (l : literal VALUE) (d : VALUE) (hd : d = l.start_delim)
    (hs : l.start_delim ≠ l.end_delim) :
    literal_nest_and_close l d = (0, { l with nesting := l.nesting + 1 }) := by
  unfold literal_nest_and_close
  rw [if_pos ⟨hs, hd⟩]

theorem literal_nest_and_close_end {VALUE : Type} [DecidableEq VALUE]
    (l : literal VALUE) (d : VALUE) (hd : d = l.end_delim) (hn : 0 < l.nesting) :
    literal_nest_and_close l d = (0, { l with nesting := l.nesting - 1 }) := by
  unfold literal_nest_and_close
  have h1 : ¬ (l.start_delim ≠ l.end_delim ∧ d = l.start_delim) :=
    fun h => h.1 (h.2.symm.trans hd)
  rw [if_neg h1, if_pos hd, if_neg (by omega), if_pos hn]

theorem literal_nest_and_close_closes_iff {VALUE : Type} [DecidableEq VALUE]
    (l : literal VALUE) (d : VALUE) :
    (literal_nest_and_close l d).1 = 1 ↔ d = l.end_delim ∧ l.nesting = 0 := by
  have h01 : ¬ (0 : Int) = 1 := by decide
  unfold literal_nest_and_close
  by_cases h1 : l.start_delim ≠ l.end_delim ∧ d = l.start_delim
  · rw [if_pos h1]
    constructor
    · intro h; exact absurd h h01
    · rintro ⟨h, _⟩; exact absurd (h1.2.symm.trans h) h1.1
  · rw [if_neg h1]
    by_cases h2 : d = l.end_delim
    · rw [if_pos h2]
      by_cases h3 : l.nesting = 0
      · rw [if_pos h3]; exact ⟨fun _ => ⟨h2, h3⟩, fun _ => rfl⟩
      · rw [if_neg h3]
        constructor
        · intro h; split at h <;> exact absurd h h01
        · rintro ⟨_, h⟩; exact absurd h h3
    · rw [if_neg h2]
      constructor
      · intro h; exact absurd h h01
      · rintro ⟨h, _⟩; exact absurd h h2

/-- Feeding a balanced word to a bracket-style literal reports no close, never
takes `nesting` below its starting value, and leaves the literal as it was. -/
theorem feedDelimiters_balanced {VALUE : Type} [DecidableEq VALUE] (o c : VALUE)
    (hoc : o ≠ c) (w : List VALUE) (hw : Balanced o c w) :
    ∀ lit : literal VALUE, lit.start_delim = o → lit.end_delim = c → 0 ≤ lit.nesting →
      (feedDelimiters lit w).2 = lit ∧
        ∀ r ∈ (feedDelimiters lit w).1, r.1 = 0 ∧ lit.nesting ≤ r.2 := by
  induction hw with
  | nil =>
    intro lit _ _ _
    exact ⟨rfl, fun r hr => by cases hr⟩
  | other x hxo hxc =>
    intro lit ho hc _
    have h1 : ¬ (lit.start_delim ≠ lit.end_delim ∧ x = lit.start_delim) :=
      fun h => hxo (h.2.trans ho)
    have h2 : ¬ x = lit.end_delim := fun h => hxc (h.trans hc)
    have hstep : literal_nest_and_close lit x = (0, lit) := by
      unfold literal_nest_and_close
      rw [if_neg h1, if_neg h2]
    rw [feedDelimiters_cons, hstep]
    refine ⟨rfl, ?_⟩
    intro r hr
    have hr' : r = (0, lit.nesting) := by simpa [feedDelimiters] using hr
    rw [hr']
    exact ⟨rfl, le_refl _⟩
  | @wrap w _ ih =>
    intro lit ho hc h0
    have hs : lit.start_delim ≠ lit.end_delim := by rw [ho, hc]; exact hoc
    obtain ⟨l1, hl1⟩ : ∃ l1 : literal VALUE, l1 = { lit with nesting := lit.nesting + 1 } :=
      ⟨_, rfl⟩
    have hs1 : l1.start_delim = o := by rw [hl1]; exact ho
    have he1 : l1.end_delim = c := by rw [hl1]; exact hc
    have hn1 : l1.nesting = lit.nesting + 1 := by rw [hl1]
    have hopen : literal_nest_and_close lit o = (0, l1) := by
      rw [hl1]; exact literal_nest_and_close_start lit o ho.symm hs
    have hback : ({ l1 with nesting := l1.nesting - 1 } : literal VALUE) = lit := by
      rw [hl1]
      cases lit
      simp
    have hclose : literal_nest_and_close l1 c = (0, lit) := by
      rw [← hback]
      exact literal_nest_and_close_end l1 c he1.symm (by omega)
    obtain ⟨ih1, ih2⟩ := ih l1 hs1 he1 (by omega)
    have hfc : feedDelimiters l1 [c] = ([(0, lit.nesting)], lit) := by
      rw [feedDelimiters_cons, hclose]; rfl
    rw [feedDelimiters_cons, hopen]
    show (feedDelimiters l1 (w ++ [c])).2 = lit ∧
      ∀ r ∈ (0, l1.nesting) :: (feedDelimiters l1 (w ++ [c])).1, r.1 = 0 ∧ lit.nesting ≤ r.2
    rw [feedDelimiters_append, ih1, hfc]
    refine ⟨rfl, ?_⟩
    intro r hr
    simp only [List.mem_cons, List.mem_append, List.mem_singleton, List.not_mem_nil,
      or_false] at hr
    rcases hr with rfl | hr | rfl
    · exact ⟨rfl, by show lit.nesting ≤ l1.nesting; omega⟩
    · obtain ⟨h1, h2⟩ := ih2 r hr
      exact ⟨h1, by omega⟩
    · exact ⟨rfl, le_refl _⟩
  | @append u v _ _ ihu ihv =>
    intro lit ho hc h0
    obtain ⟨hu1, hu2⟩ := ihu lit ho hc h0
    obtain ⟨hv1, hv2⟩ := ihv lit ho hc h0
    rw [feedDelimiters_append, hu1]
    refine ⟨hv1, ?_⟩
    intro r hr
    simp only [List.mem_append] at hr
    rcases hr with hr | hr
    · exact hu2 r hr
    · exact hv2 r hr

theorem parenContent_balanced :
    Balanced parenLiteral.start_delim parenLiteral.end_delim parenContent := by
  have hc : Balanced (40 : Nat) 41 [99] := Balanced.other 99 (by decide) (by decide)
  have hb : Balanced (40 : Nat) 41 [98] := Balanced.other 98 (by decide) (by decide)
  have ha : Balanced (40 : Nat) 41 [97] := Balanced.other 97 (by decide) (by decide)
  have hd : Balanced (40 : Nat) 41 [100] := Balanced.other 100 (by decide) (by decide)
  have h1 : Balanced (40 : Nat) 41 (40 :: ([99] ++ [41])) := Balanced.wrap hc
  have h2 : Balanced (40 : Nat) 41 ([98] ++ 40 :: ([99] ++ [41])) := Balanced.append hb h1
  have h3 : Balanced (40 : Nat) 41 (40 :: (([98] ++ 40 :: ([99] ++ [41])) ++ [41])) :=
    Balanced.wrap h2
  exact Balanced.append ha (Balanced.append h3 hd)

/-- C12: for every bracket-style literal with `nesting == 0` and every content
`w` in which the occurrences of its delimiter pair are balanced, feeding `w`
and then the end-delimiter to `literal_nest_and_close` reports no close inside
`w`, keeps `nesting ≥ 0` after every character, and closes at the final
end-delimiter, with `nesting` back at `0`: the literal closes exactly once.
For every literal a call keeps `nesting ≥ 0`, an end-delimiter seen while
`nesting > 0` is content and decrements `nesting`, and a close is reported
exactly for an end-delimiter seen with `nesting == 0`. -/
theorem literal_closes_at_outermost_delimiter {VALUE : Type} [DecidableEq VALUE]
    (lit : literal VALUE) (w : List VALUE) (hs : lit.start_delim ≠ lit.end_delim)
    (h0 : lit.nesting = 0) (hw : Balanced lit.start_delim lit.end_delim w) :
    feedDelimiters lit (w ++ [lit.end_delim]) =
        ((feedDelimiters lit w).1 ++ [(1, 0)], lit) ∧
      (∀ r ∈ (feedDelimiters lit w).1, r.1 = 0 ∧ 0 ≤ r.2) ∧
      ((feedDelimiters lit (w ++ [lit.end_delim])).1.map Prod.fst).count 1 = 1 ∧
      (∀ (l : literal VALUE) (d : VALUE), 0 ≤ l.nesting →
        0 ≤ (literal_nest_and_close l d).2.nesting) ∧
      (∀ l : literal VALUE, 0 < l.nesting →
        literal_nest_and_close l l.end_delim = (0, { l with nesting := l.nesting - 1 })) ∧
      (∀ (l : literal VALUE) (d : VALUE),
        (literal_nest_and_close l d).1 = 1 ↔ d = l.end_delim ∧ l.nesting = 0) := by
  obtain ⟨hb1, hb2⟩ := feedDelimiters_balanced lit.start_delim lit.end_delim hs w hw lit
    rfl rfl (by omega)
  have hlast : literal_nest_and_close lit lit.end_delim = (1, lit) := by
    unfold literal_nest_and_close
    rw [if_neg (fun h => hs h.2.symm), if_pos rfl, if_pos h0]
  have hfeed : feedDelimiters lit (w ++ [lit.end_delim]) =
      ((feedDelimiters lit w).1 ++ [(1, 0)], lit) := by
    rw [feedDelimiters_append, hb1, feedDelimiters_cons, hlast]
    show ((feedDelimiters lit w).1 ++ [((1 : Int), lit.nesting)], lit) = _
    rw [h0]
  have hzero : ∀ r ∈ (feedDelimiters lit w).1, r.1 = 0 ∧ 0 ≤ r.2 := by
    intro r hr
    obtain ⟨h1, h2⟩ := hb2 r hr
    exact ⟨h1, by omega⟩
  refine ⟨hfeed, hzero, ?_, fun l d h => literal_nest_and_close_nonneg l d h,
    fun l h => literal_nest_and_close_end l l.end_delim rfl h,
    fun l d => literal_nest_and_close_closes_iff l d⟩
  rw [hfeed]
  have hc0 : ((feedDelimiters lit w).1.map Prod.fst).count 1 = 0 := by
    rw [List.count_eq_zero]
    intro hmem
    obtain ⟨r, hr, hr1⟩ := List.mem_map.mp hmem
    have := (hzero r hr).1
    rw [this] at hr1
    exact absurd hr1 (by decide)
  simp only [List.map_append, List.map_cons, List.map_nil, List.count_append, hc0]
  decide

/-- C12 on `%(a(b(c))d)`: the two inner `)` are content, seen with `nesting`
`2` and `1`, and the literal closes at the last `)`. -/
theorem literal_closes_at_outermost_delimiter_witness :
    parenLiteral.start_delim ≠ parenLiteral.end_delim ∧ parenLiteral.nesting = 0 ∧
      Balanced parenLiteral.start_delim parenLiteral.end_delim parenContent ∧
      feedDelimiters parenLiteral (parenContent ++ [parenLiteral.end_delim]) =
        ((feedDelimiters parenLiteral parenContent).1 ++ [(1, 0)], parenLiteral) ∧
      feedDelimiters parenLiteral (parenContent ++ [41]) =
        ([(0, 0), (0, 1), (0, 1), (0, 2), (0, 2), (0, 1), (0, 0), (0, 0), (1, 0)],
          parenLiteral) :=
  ⟨by decide, rfl, parenContent_balanced,
    (literal_closes_at_outermost_delimiter parenLiteral parenContent (by decide) rfl
      parenContent_balanced).1,
    by decide⟩

theorem feedCode_append {VALUE : Type} (u v : List CodeTok) :
    ∀ lit : literal VALUE, feedCode lit (u ++ v) =
      ((feedCode lit u).1 ++ (feedCode (feedCode lit u).2 v).1,
        (feedCode (feedCode lit u).2 v).2) := by
  induction u with
  | nil => intro lit; rfl
  | cons t u ih =>
    intro lit
    cases t
    · show ((0, (literal_start_interp_brace lit).interp_braces) ::
          (feedCode (literal_start_interp_brace lit) (u ++ v)).1,
        (feedCode (literal_start_interp_brace lit) (u ++ v)).2) = _
      rw [ih]; rfl
    · show (((literal_end_interp_brace_and_close lit).1,
          (literal_end_interp_brace_and_close lit).2.interp_braces) ::
          (feedCode (literal_end_interp_brace_and_close lit).2 (u ++ v)).1,
        (feedCode (literal_end_interp_brace_and_close lit).2 (u ++ v)).2) = _
      rw [ih]; rfl
    · show ((0, lit.interp_braces) :: (feedCode lit (u ++ v)).1,
        (feedCode lit (u ++ v)).2) = _
      rw [ih]; rfl

theorem literal_end_interp_brace_and_close_closes_iff {VALUE : Type} (l : literal VALUE) :
    (literal_end_interp_brace_and_close l).1 = 1 ↔
      (literal_end_interp_brace_and_close l).2.interp_braces = 0 := by
  show (if l.interp_braces - 1 = 0 then (1 : Int) else 0) = 1 ↔ l.interp_braces - 1 = 0
  split
  · exact ⟨fun _ => by assumption, fun _ => rfl⟩
  · exact ⟨fun h => absurd h (by decide), fun h => absurd h (by assumption)⟩

/-- Feeding balanced code to a literal inside an interpolation reports no
close, never takes `interp_braces` below its starting value, and leaves the
literal as it was. -/
theorem feedCode_balanced {VALUE : Type} (w : List CodeTok)
    (hw : Balanced CodeTok.lbrace CodeTok.rbrace w) :
    ∀ lit : literal VALUE, 1 ≤ lit.interp_braces →
      (feedCode lit w).2 = lit ∧
        ∀ r ∈ (feedCode lit w).1, r.1 = 0 ∧ lit.interp_braces ≤ r.2 := by
  induction hw with
  | nil =>
    intro lit _
    exact ⟨rfl, fun r hr => by cases hr⟩
  | other x hxo hxc =>
    intro lit _
    cases x with
    | lbrace => exact absurd rfl hxo
    | rbrace => exact absurd rfl hxc
    | other =>
      refine ⟨rfl, ?_⟩
      intro r hr
      have hr' : r = (0, lit.interp_braces) := by simpa [feedCode] using hr
      rw [hr']
      exact ⟨rfl, le_refl _⟩
  | @wrap w _ ih =>
    intro lit h1
    obtain ⟨l1, hl1⟩ : ∃ l1 : literal VALUE, l1 = literal_start_interp_brace lit := ⟨_, rfl⟩
    have hn1 : l1.interp_braces = lit.interp_braces + 1 := by rw [hl1]; rfl
    have hback : (literal_end_interp_brace_and_close l1).2 = lit := by
      rw [hl1]
      cases lit
      simp [literal_end_interp_brace_and_close, literal_start_interp_brace]
    have hflag : (literal_end_interp_brace_and_close l1).1 = 0 := by
      show (if l1.interp_braces - 1 = 0 then (1 : Int) else 0) = 0
      rw [if_neg (by omega)]
    obtain ⟨ih1, ih2⟩ := ih l1 (by omega)
    have hfc : feedCode l1 [CodeTok.rbrace] = ([(0, lit.interp_braces)], lit) := by
      show (((literal_end_interp_brace_and_close l1).1,
        (literal_end_interp_brace_and_close l1).2.interp_braces) :: [],
        (literal_end_interp_brace_and_close l1).2) = _
      rw [hflag, hback]
    show (feedCode (literal_start_interp_brace lit) (w ++ [CodeTok.rbrace])).2 = lit ∧
      ∀ r ∈ (0, (literal_start_interp_brace lit).interp_braces) ::
          (feedCode (literal_start_interp_brace lit) (w ++ [CodeTok.rbrace])).1,
        r.1 = 0 ∧ lit.interp_braces ≤ r.2
    rw [← hl1, feedCode_append, ih1, hfc]
    refine ⟨rfl, ?_⟩
    intro r hr
    simp only [List.mem_cons, List.mem_append, List.mem_singleton, List.not_mem_nil,
      or_false] at hr
    rcases hr with rfl | hr | rfl
    · exact ⟨rfl, by show lit.interp_braces ≤ l1.interp_braces; omega⟩
    · obtain ⟨h1, h2⟩ := ih2 r hr
      exact ⟨h1, by omega⟩
    · exact ⟨rfl, le_refl _⟩
  | @append u v _ _ ihu ihv =>
    intro lit h1
    obtain ⟨hu1, hu2⟩ := ihu lit h1
    obtain ⟨hv1, hv2⟩ := ihv lit h1
    rw [feedCode_append, hu1]
    refine ⟨hv1, ?_⟩
    intro r hr
    simp only [List.mem_append] at hr
    rcases hr with hr | hr
    · exact hu2 r hr
    · exact hv2 r hr

theorem interpContent_balanced :
    Balanced CodeTok.lbrace CodeTok.rbrace interpContent := by
  have h1 : Balanced CodeTok.lbrace CodeTok.rbrace
      (CodeTok.lbrace :: ([] ++ [CodeTok.rbrace])) := Balanced.wrap Balanced.nil
  exact Balanced.append h1 h1

/-- C13: for every literal in which an interpolation has begun, `interp_braces`
being `1`, and every balanced sequence `w` of code tokens, feeding `w` and then
a `}` reports no close inside `w`, where `interp_braces` stays at least `1`, and
reports the interpolation closed at the final `}`, which brings `interp_braces`
to `0`: exactly one close is reported. Every `literal_start_interp_brace`
increments `interp_braces`, every `literal_end_interp_brace_and_close`
decrements it and reports a close exactly when it has brought it to `0`. -/
theorem interpolation_closes_at_matching_brace {VALUE : Type} (lit : literal VALUE)
    (w : List CodeTok) (h1 : lit.interp_braces = 1)
    (hw : Balanced CodeTok.lbrace CodeTok.rbrace w) :
    feedCode lit (w ++ [CodeTok.rbrace]) =
        ((feedCode lit w).1 ++ [(1, 0)], { lit with interp_braces := 0 }) ∧
      (∀ r ∈ (feedCode lit w).1, r.1 = 0 ∧ 1 ≤ r.2) ∧
      ((feedCode lit (w ++ [CodeTok.rbrace])).1.map Prod.fst).count 1 = 1 ∧
      (∀ l : literal VALUE,
        (literal_start_interp_brace l).interp_braces = l.interp_braces + 1) ∧
      (∀ l : literal VALUE,
        (literal_end_interp_brace_and_close l).2.interp_braces = l.interp_braces - 1) ∧
      (∀ l : literal VALUE, (literal_end_interp_brace_and_close l).1 = 1 ↔
        (literal_end_interp_brace_and_close l).2.interp_braces = 0) := by
  obtain ⟨hb1, hb2⟩ := feedCode_balanced w hw lit (by omega)
  have hlast : literal_end_interp_brace_and_close lit =
      (1, { lit with interp_braces := 0 }) := by
    unfold literal_end_interp_brace_and_close
    simp [h1]
  have hfeed : feedCode lit (w ++ [CodeTok.rbrace]) =
      ((feedCode lit w).1 ++ [(1, 0)], { lit with interp_braces := 0 }) := by
    rw [feedCode_append, hb1]
    show ((feedCode lit w).1 ++ [((literal_end_interp_brace_and_close lit).1,
        (literal_end_interp_brace_and_close lit).2.interp_braces)],
      (literal_end_interp_brace_and_close lit).2) = _
    rw [hlast]
  have hone : ∀ r ∈ (feedCode lit w).1, r.1 = 0 ∧ 1 ≤ r.2 := by
    intro r hr
    obtain ⟨h2, h3⟩ := hb2 r hr
    exact ⟨h2, by omega⟩
  refine ⟨hfeed, hone, ?_, fun l => rfl, fun l => rfl,
    fun l => literal_end_interp_brace_and_close_closes_iff l⟩
  rw [hfeed]
  have hc0 : ((feedCode lit w).1.map Prod.fst).count 1 = 0 := by
    rw [List.count_eq_zero]
    intro hmem
    obtain ⟨r, hr, hr1⟩ := List.mem_map.mp hmem
    have := (hone r hr).1
    rw [this] at hr1
    exact absurd hr1 (by decide)
  simp only [List.map_append, List.map_cons, List.map_nil, List.count_append, hc0]
  decide

/-- C13 on `#{ {} {} }`: after the `#{` the count is `1`; it is `2, 1, 2, 1`
after the four inner braces and reaches `0` at the final `}` only, where the
one close is reported. -/
theorem interpolation_closes_at_matching_brace_witness :
    interpLiteral.interp_braces = 1 ∧
      Balanced CodeTok.lbrace CodeTok.rbrace interpContent ∧
      feedCode interpLiteral (interpContent ++ [CodeTok.rbrace]) =
        ((feedCode interpLiteral interpContent).1 ++ [(1, 0)],
          { interpLiteral with interp_braces := 0 }) ∧
      (feedCode interpLiteral (interpContent ++ [CodeTok.rbrace])).1 =
        [(0, 2), (0, 1), (0, 2), (0, 1), (1, 0)] ∧
      ((feedCode interpLiteral (interpContent ++ [CodeTok.rbrace])).1.map Prod.fst).count 1
        = 1 :=
  ⟨rfl, interpContent_balanced,
    (interpolation_closes_at_matching_brace interpLiteral interpContent rfl
      interpContent_balanced).1,
    by decide,
    (interpolation_closes_at_matching_brace interpLiteral interpContent rfl
      interpContent_balanced).2.2.1⟩

end Lexer
